import Mathlib

/-!
Verification of the pick-clock scheduling and enforcement engine of the
`bnsldraft` repository (`draft_order_page.py`, `baseball.py`).

Shallow embedding conventions:

* Wall-clock Eastern times are linearized as `Int` minutes since the draft
  epoch (Nov 1, 2025, 00:00 Eastern, which is a Saturday); `DRAFT_START`
  (Nov 1, 2025, 09:00 Eastern) is minute `540`.  All datetimes the scheduler
  constructs lie on exact hours between 09:00 and the evening overflow slots,
  far away from the 01:00-02:00 DST transition window, so the wall-clock
  linear order coincides with the instant order Python uses to compare
  aware datetimes, and `datetime(...).date()` is floor division by 1440.
* Python dicts keyed by `int` are assoc lists `List (Nat × Int)` with a
  replace-or-append insert (`dinsert`); `dict.get` is `List.lookup`,
  `len` is `List.length` (keys stay distinct exactly when the code's do).
* SQLite rows become structures; `NULL` becomes `Option`; Python truthiness
  of `player_id` / `franchise` text is modelled explicitly.
-/

namespace Bnsl

/-- Calendar-day index of a time, `datetime.date()`: floor division by 1440
(`Int` division in Lean is Euclidean, which is floor division for a
positive divisor). -/
def dayOf (t : Int) : Int := t / 1440

/-- Wall-clock hour within the day. -/
def hourOf (t : Int) : Int := t % 1440 / 60

/-- Local time at minute 0 of hour `h` on day `d` (the
`datetime(day.year, day.month, day.day, h, 0, 0, tzinfo=EASTERN)` pattern). -/
def mkTime (d h : Int) : Int := d * 1440 + h * 60

/-- Python `date.weekday()` of day index `d`: Monday = 0 .. Sunday = 6.
Day 0 (Nov 1 2025) is a Saturday, weekday 5. -/
def weekdayOf (d : Int) : Int := (d + 5) % 7

/-- `DAY_FIRST_HOUR = 9` from the source. -/
def DAY_FIRST_HOUR : Int := 9

/-- `DAY_LAST_HOUR = 18` from the source. -/
def DAY_LAST_HOUR : Int := 18

/-- `END_OF_DAY_MISS_HOUR = 19` from the source. -/
def END_OF_DAY_MISS_HOUR : Int := 19

/-- `PICKS_PER_DAY = DAY_LAST_HOUR - DAY_FIRST_HOUR + 1 = 10` from the source. -/
def PICKS_PER_DAY : Nat := 10

/-- `DRAFT_START` (Nov 1 2025 09:00 Eastern) as a linearized time. -/
def DRAFT_START : Int := mkTime 0 9

/-- `base_slot_for_index(i)` from `draft_order_page.py`:
`day_idx, offset = divmod(i, PICKS_PER_DAY)`;
`slot_hour = DAY_FIRST_HOUR + offset`;
`start_day = (DRAFT_START + timedelta(days=day_idx)).date()` (= day `day_idx`);
result is `start_day` at hour `slot_hour`. -/
def base_slot_for_index (i : Nat) : Int :=
  mkTime ((i / PICKS_PER_DAY : Nat) : Int) (DAY_FIRST_HOUR + ((i % PICKS_PER_DAY : Nat) : Int))

/-! ### Rows of the `draft_order` table -/

/-- A row of `draft_order` (columns used by the scheduler; `label` is only
display text and is omitted). `drafted_at` is a UTC timestamp (abstract `Int`). -/
structure PickRow where
  id : Nat
  round : Nat
  pick : Nat
  team : String
  playerId : Option Nat
  draftedAt : Option Int
deriving DecidableEq, Repr

/-- Python truthiness of `rec["player_id"]` (`NULL` and `0` are falsy):
the guard `if rec["player_id"]:` used to skip drafted picks. -/
def pickTaken (r : PickRow) : Bool :=
  match r.playerId with
  | some v => v != 0
  | none => false

/-! ### Python dict over `int` keys, as an assoc list -/

/-- A `dict[int, datetime]` as an assoc list (insertion order preserved). -/
abbrev Dict := List (Nat × Int)

/-- `d[k] = v` on a Python dict: replace in place when the key exists,
append otherwise. -/
def dinsert (m : Dict) (k : Nat) (v : Int) : Dict :=
  if m.any (fun p => p.1 == k) then
    m.map (fun p => if p.1 == k then (k, v) else p)
  else m ++ [(k, v)]

/-- Keys of a dict (distinct whenever the code only inserts fresh keys). -/
def dkeys (m : Dict) : List Nat := m.map (·.1)

/-! ### Designated times, deadlines, miss classification -/

/-- The scheduler's input: the ordered `draft_order` rows plus the
(parsed, Eastern-normalized) `pick_overrides` map keyed by `draft_order.id`.
Malformed override rows are dropped by the parser, so they are simply absent
from `ov`. -/
structure Sched where
  picks : List PickRow
  ov : Nat → Option Int

/-- Number of picks. -/
def Sched.total (s : Sched) : Nat := s.picks.length

/-- `designated[i] = overrides.get(picks[i].id, base_slot_for_index(i))`
(junk `0` out of range; all theorems quantify over `i < total`). -/
def Sched.designatedAt (s : Sched) (i : Nat) : Int :=
  match s.picks.get? i with
  | some r => (s.ov r.id).getD (base_slot_for_index i)
  | none => 0

/-- The Python list `designated` (indexed by pick order). -/
def Sched.designatedList (s : Sched) : List Int :=
  (List.range s.total).map s.designatedAt

/-- `next_deadlines[i]`: the next pick's designated time, or
`designated[i] + timedelta(days=36500)` for the last pick. -/
def Sched.nd (s : Sched) (i : Nat) : Int :=
  if i + 1 < s.total then s.designatedAt (i + 1)
  else s.designatedAt i + 36500 * 1440

/-- Whether index `i` holds an undrafted pick. -/
def Sched.undraftedAt (s : Sched) (i : Nat) : Bool :=
  match s.picks.get? i with
  | some r => !(pickTaken r)
  | none => false

/-- `undrafted_idxs = [i for i, r in enumerate(picks) if not r["player_id"]]`. -/
def Sched.undraftedIdxs (s : Sched) : List Nat :=
  (List.range s.total).filter (fun i => s.undraftedAt i)

/-- `missed_by_day.setdefault(key, []).append(i)`: append `i` to day `d`'s
bucket. Buckets are a total function from day index to the bucket list. -/
def addBucket (b : Int → List Nat) (d : Int) (i : Nat) : Int → List Nat :=
  fun d' => if d' = d then b d ++ [i] else b d'

/-- Pass 1 of `_compute_scheduled_times`: walk `undrafted_idxs` in order;
a pick with `now >= next_deadlines[i]` goes into the miss bucket of the
calendar day of its own designated time, otherwise
`scheduled_time[i] = designated[i]`. Returns `(missed_by_day, scheduled_time)`. -/
def classify (s : Sched) (now : Int) : (Int → List Nat) × Dict :=
  s.undraftedIdxs.foldl
    (fun acc i =>
      if now ≥ s.nd i then
        (addBucket acc.1 (dayOf (s.designatedAt i)) i, acc.2)
      else
        (acc.1, dinsert acc.2 i (s.designatedAt i)))
    (fun _ => [], [])

/-! ### The evening overflow queue -/

/-- The Python message of `ValueError: hour must be in 0..23`. -/
def hourValueError : String := "ValueError: hour must be in 0..23"

/-- Decidable equality of `Except` results (so concrete runs can be
checked by evaluation). -/
instance {ε α : Type} [DecidableEq ε] [DecidableEq α] :
    DecidableEq (Except ε α)
  | Except.error x, Except.error y =>
    if h : x = y then Decidable.isTrue (congrArg Except.error h)
    else Decidable.isFalse (fun hc => h (Except.error.inj hc))
  | Except.error _, Except.ok _ => Decidable.isFalse (fun hc => Except.noConfusion hc)
  | Except.ok _, Except.error _ => Decidable.isFalse (fun hc => Except.noConfusion hc)
  | Except.ok x, Except.ok y =>
    if h : x = y then Decidable.isTrue (congrArg Except.ok h)
    else Decidable.isFalse (fun hc => h (Except.ok.inj hc))

/-- The `datetime(year, month, day, hour, 0, 0, tzinfo=EASTERN)` constructor:
it raises `ValueError` unless `0 <= hour <= 23`.  The evening-queue loop
reaches hour `19 + j`, so queue positions `j >= 5` (and position 4's
same-day deadline) make the program raise. -/
def datetimeMk (day hour : Int) : Except String Int :=
  if 0 ≤ hour ∧ hour ≤ 23 then Except.ok (mkTime day hour)
  else Except.error hourValueError

/-- Deadline of evening slot `j` on day `day` in a queue of length `qlen`:
the next same-day evening slot if one follows (raising `ValueError` when
its hour `19 + j + 1` exceeds 23), else 09:00 the next day. -/
def slotDeadline (day : Int) (j qlen : Nat) : Except String Int :=
  if j + 1 < qlen then datetimeMk day (END_OF_DAY_MISS_HOUR + (j : Int) + 1)
  else datetimeMk (day + 1) DAY_FIRST_HOUR

/-- The evening slot for queue position `j` on day `day`: hour `19 + j`,
raising `ValueError` for `j >= 5`. -/
def eveningSlot (day : Int) (j : Nat) : Except String Int :=
  datetimeMk day (END_OF_DAY_MISS_HOUR + (j : Int))

/-- Success-path value of `slotDeadline` (proof device: equal to it whenever
it does not raise — all positions of a queue of at most 5 entries). -/
def slotDeadlineT (day : Int) (j qlen : Nat) : Int :=
  if j + 1 < qlen then mkTime day (END_OF_DAY_MISS_HOUR + (j : Int) + 1)
  else mkTime (day + 1) DAY_FIRST_HOUR

/-- Success-path value of `eveningSlot` (proof device: equal to it for
positions `j <= 4`, where the hour stays within 0..23). -/
def eveningSlotT (day : Int) (j : Nat) : Int :=
  mkTime day (END_OF_DAY_MISS_HOUR + (j : Int))

/-- Inner `for j, idx in enumerate(evening_queue)` loop of
`_compute_scheduled_times`: the slot datetime is built first, then the
slot's deadline (either construction raises `ValueError` past hour 23 and
aborts the whole computation); an entry whose deadline has passed is
appended to `new_carryover`, otherwise it is finalized at its evening slot. -/
def pqGo (now day : Int) (qlen : Nat) :
    Nat → List Nat → Dict → List Nat → Except String (Dict × List Nat)
  | _, [], sched, carry => Except.ok (sched, carry)
  | j, idx :: rest, sched, carry =>
    match eveningSlot day j with
    | Except.error e => Except.error e
    | Except.ok slot =>
      match slotDeadline day j qlen with
      | Except.error e => Except.error e
      | Except.ok dl =>
        if now ≥ dl then pqGo now day qlen (j + 1) rest sched (carry ++ [idx])
        else pqGo now day qlen (j + 1) rest (dinsert sched idx slot) carry

/-- Process one day's evening queue (`new_carryover` starts empty);
raises `ValueError` exactly when the queue has 6 or more entries. -/
def processQueue (now day : Int) (queue : List Nat) (sched : Dict) :
    Except String (Dict × List Nat) :=
  pqGo now day queue.length 0 queue sched []

/-- Success-path form of `pqGo` (proof device: equal to the value of `pqGo`
whenever `pqGo` does not raise). -/
def pqGoT (now day : Int) (qlen : Nat) :
    Nat → List Nat → Dict → List Nat → Dict × List Nat
  | _, [], sched, carry => (sched, carry)
  | j, idx :: rest, sched, carry =>
    if now ≥ slotDeadlineT day j qlen then
      pqGoT now day qlen (j + 1) rest sched (carry ++ [idx])
    else
      pqGoT now day qlen (j + 1) rest (dinsert sched idx (eveningSlotT day j)) carry

/-- Success-path form of `processQueue`. -/
def processQueueT (now day : Int) (queue : List Nat) (sched : Dict) :
    Dict × List Nat :=
  pqGoT now day queue.length 0 queue sched []

/-- The bounded day-by-day walk
(`while len(scheduled_time) < len(undrafted_idxs) and safety_days < 3650`):
each iteration builds `evening_queue = todays_misses + carryover_eod`
(today's misses first, then carryover), processes it — a `ValueError`
raised there propagates out of the walk — then advances one day.
Returns `(scheduled_time, carryover_eod, day)` at exit. -/
def walk (now : Int) (buckets : Int → List Nat) (cnt : Nat) :
    Nat → Int → List Nat → Dict → Except String (Dict × List Nat × Int)
  | 0, day, carry, sched => Except.ok (sched, carry, day)
  | fuel + 1, day, carry, sched =>
    if sched.length < cnt then
      match processQueue now day (buckets day ++ carry) sched with
      | Except.error e => Except.error e
      | Except.ok r => walk now buckets cnt fuel (day + 1) r.2 r.1
    else Except.ok (sched, carry, day)

/-- Success-path form of `walk` (proof device: equal to the value of `walk`
whenever no processed day raises). -/
def walkT (now : Int) (buckets : Int → List Nat) (cnt : Nat) :
    Nat → Int → List Nat → Dict → Dict × List Nat × Int
  | 0, day, carry, sched => (sched, carry, day)
  | fuel + 1, day, carry, sched =>
    if sched.length < cnt then
      let r := processQueueT now day (buckets day ++ carry) sched
      walkT now buckets cnt fuel (day + 1) r.2 r.1
    else (sched, carry, day)

/-- Trailing backstop of `_compute_scheduled_times`: leftover carryover
entries are shoved onto day `day` (the day after the last one walked)
at hours 19, 20, ... in queue order; position 5 onward builds hour 24 and
raises `ValueError`. -/
def backstopGo (day : Int) : Nat → List Nat → Dict → Except String Dict
  | _, [], sched => Except.ok sched
  | j, idx :: rest, sched =>
    match eveningSlot day j with
    | Except.error e => Except.error e
    | Except.ok slot => backstopGo day (j + 1) rest (dinsert sched idx slot)

/-- Success-path form of `backstopGo` (proof device: equal to the value of
`backstopGo` whenever it does not raise — at most 5 leftovers). -/
def backstopGoT (day : Int) : Nat → List Nat → Dict → Dict
  | _, [], sched => sched
  | j, idx :: rest, sched =>
    backstopGoT day (j + 1) rest (dinsert sched idx (eveningSlotT day j))

/-- Starting day of the walk: the calendar day of `min(designated)`
(`DRAFT_START.date()` when there are no picks). -/
def Sched.startDay (s : Sched) : Int :=
  if s.picks.isEmpty then dayOf DRAFT_START
  else dayOf (match s.designatedList with
              | [] => 0
              | x :: xs => xs.foldl min x)

/-- The `(scheduled_time, carryover_eod, day)` state when the while loop of
`_compute_scheduled_times` exits (or the `ValueError` a processed day raised). -/
def walkResult (s : Sched) (now : Int) : Except String (Dict × List Nat × Int) :=
  walk now (classify s now).1 s.undraftedIdxs.length 3650 s.startDay [] (classify s now).2

/-- Success-path form of `walkResult`. -/
def walkResultT (s : Sched) (now : Int) : Dict × List Nat × Int :=
  walkT now (classify s now).1 s.undraftedIdxs.length 3650 s.startDay [] (classify s now).2

/-- `_compute_scheduled_times(now)` from `draft_order_page.py`: pass 1
classification, the bounded day-by-day walk, then the leftover backstop;
a `ValueError` raised in either loop propagates to the caller. -/
def compute_scheduled_times (s : Sched) (now : Int) : Except String Dict :=
  match walkResult s now with
  | Except.error e => Except.error e
  | Except.ok w => backstopGo w.2.2 0 w.2.1 w.1

/-- Success-path form of `compute_scheduled_times` (proof device: equal to
its value whenever it does not raise). -/
def computeT (s : Sched) (now : Int) : Dict :=
  backstopGoT (walkResultT s now).2.2 0 (walkResultT s now).2.1 (walkResultT s now).1

/-- The evening-queue entries of a processed day that re-miss (each queue
position whose slot deadline has passed), in queue order: the closed form
of the `new_carryover` list pqGoT accumulates. -/
def pqRemiss (now day : Int) (qlen : Nat) : Nat → List Nat → List Nat
  | _, [] => []
  | j, idx :: rest =>
    if now ≥ slotDeadlineT day j qlen then idx :: pqRemiss now day qlen (j + 1) rest
    else pqRemiss now day qlen (j + 1) rest

/-- Lexicographic `(time, index)` order used to state minimality of the
on-clock pick. -/
def keyLe (a b : Int × Nat) : Prop :=
  a.1 < b.1 ∨ (a.1 = b.1 ∧ a.2 ≤ b.2)

/-! ### Spec-words model for the overflow-queue composition (claim C4)

The spec describes the day-`d` overflow queue as
`carryoverFromPreviousDay ++ todaysMissesSortedByDesignatedTime`.  The
following definitions follow those words (not the source, which uses
`todays_misses + carryover_eod` with the bucket in ascending index order)
so the two can be compared on a concrete input. -/

/-- Stable insertion into a list sorted by `key`. -/
def insertByTime (key : Nat → Int) (i : Nat) : List Nat → List Nat
  | [] => [i]
  | x :: xs => if key i ≤ key x then i :: x :: xs else x :: insertByTime key i xs

/-- Stable insertion sort by `key` (Python `sorted`). -/
def sortByTime (key : Nat → Int) : List Nat → List Nat
  | [] => []
  | x :: xs => insertByTime key x (sortByTime key xs)

/-- The walk as the spec words it for C4: day queue =
carryover first, then today's misses sorted by their designated time. -/
def walkSpecC4 (s : Sched) (now : Int) (buckets : Int → List Nat) (cnt : Nat) :
    Nat → Int → List Nat → Dict → Dict × List Nat × Int
  | 0, day, carry, sched => (sched, carry, day)
  | fuel + 1, day, carry, sched =>
    if sched.length < cnt then
      let q := carry ++ sortByTime s.designatedAt (buckets day)
      let r := processQueueT now day q sched
      walkSpecC4 s now buckets cnt fuel (day + 1) r.2 r.1
    else (sched, carry, day)

/-- Schedule resolution with the overflow-queue composition the claim C4
states (carryover first, miss bucket sorted by designated time). -/
def computeSpecC4 (s : Sched) (now : Int) : Dict :=
  let cls := classify s now
  let w := walkSpecC4 s now cls.1 s.undraftedIdxs.length 3650 s.startDay [] cls.2
  backstopGoT w.2.2 0 w.2.1 w.1

/-! ### On-clock selection -/

/-- `scheduled_time.get(i, designated[i])`: the effective time used for
ordering, against a given resolved schedule dict `m`. -/
def schedOrDesignated (s : Sched) (m : Dict) (i : Nat) : Int :=
  (List.lookup i m).getD (s.designatedAt i)

/-- Python tuple comparison `(t, i) < (t', i')`. -/
def keyLtB (a b : Int × Nat) : Bool :=
  a.1 < b.1 || (a.1 == b.1 && a.2 < b.2)

/-- The selection loop shared by `get_current_on_clock_pick` and
`get_current_pick_info`: scan picks in order, skip drafted ones, and keep
the minimal `(scheduled_or_designated_time, index)` key. -/
def pickLoopGo (eff : Nat → Int) : Nat → List PickRow → Option (Int × Nat) → Option (Int × Nat)
  | _, [], acc => acc
  | i, r :: rest, acc =>
    if pickTaken r then pickLoopGo eff (i + 1) rest acc
    else
      pickLoopGo eff (i + 1) rest
        (match acc with
         | none => some (eff i, i)
         | some bk => if keyLtB (eff i, i) bk then some (eff i, i) else some bk)

/-- Index of the current on-clock pick (the `best_idx` of the source loops);
`_compute_scheduled_times` runs first, so its `ValueError` propagates. -/
def onClockIdx (s : Sched) (now : Int) : Except String (Option Nat) :=
  match compute_scheduled_times s now with
  | Except.error e => Except.error e
  | Except.ok m => Except.ok ((pickLoopGo (schedOrDesignated s m) 0 s.picks none).map (·.2))

/-- `get_current_on_clock_pick(now)`: the undrafted pick with minimal
`(scheduled_time, index)`, `None` when every pick is drafted, or the
`ValueError` raised by `_compute_scheduled_times`. -/
def get_current_on_clock_pick (s : Sched) (now : Int) : Except String (Option PickRow) :=
  match onClockIdx s now with
  | Except.error e => Except.error e
  | Except.ok o => Except.ok (o.bind (fun b => s.picks.get? b))

/-- Result record of `get_current_pick_info` (ISO formatting elided:
the Eastern times themselves are carried). -/
structure PickInfo where
  id : Nat
  round : Nat
  pickNo : Nat
  team : String
  schedTime : Int
  deadline : Option Int
deriving DecidableEq, Repr

/-- `get_current_pick_info(now)`: the current pick's identity, its resolved
scheduled time, and a deadline equal to the designated time of the pick at
the next original-order index (`None` for the last index). -/
def get_current_pick_info (s : Sched) (now : Int) : Except String (Option PickInfo) :=
  if s.picks.isEmpty then Except.ok none
  else
    match compute_scheduled_times s now with
    | Except.error e => Except.error e
    | Except.ok m =>
      match pickLoopGo (schedOrDesignated s m) 0 s.picks none with
      | none => Except.ok none
      | some bk =>
        match s.picks.get? bk.2 with
        | none => Except.ok none
        | some rec =>
          Except.ok (some
            { id := rec.id, round := rec.round, pickNo := rec.pick, team := rec.team,
              schedTime := schedOrDesignated s m bk.2,
              deadline :=
                if bk.2 + 1 < s.total then some (s.designatedAt (bk.2 + 1)) else none })

/-! ### `baseball.py`: players, queues, drafting, enforcement -/

/-- A row of `players` (columns used by drafting). `franchise` is TEXT
(`NULL` or `''` mean unowned); `eligible` is INTEGER (schema default 1,
kept optional to model `COALESCE` faithfully). -/
structure Player where
  id : Nat
  franchise : Option String
  eligible : Option Int
deriving DecidableEq, Repr

/-- A row of `draft_queue`. -/
structure QueueEntry where
  qid : Nat
  team : String
  playerId : Nat
  position : Nat
deriving DecidableEq, Repr

/-- The database state drafting operates on, plus the override map and
`team_prefs.use_queue_at_start` (absent row = default end-of-clock). -/
structure DB where
  players : List Player
  order : List PickRow
  queue : List QueueEntry
  prefs : String → Option Bool
  ov : Nat → Option Int

/-- The scheduling view of a `DB` (what
`_load_picks_overrides_and_designated` reads). -/
def DB.sched (db : DB) : Sched := { picks := db.order, ov := db.ov }

/-- `SELECT ... FROM players WHERE id=?` then `fetchone()`. -/
def findPlayer (db : DB) (pid : Nat) : Option Player :=
  db.players.find? (fun p => p.id == pid)

/-- Python truthiness of a TEXT column (`if prow["franchise"]:`). -/
def truthyStr : Option String → Bool
  | none => false
  | some sv => sv != ""

/-- `get_queue_mode(team)`: `use_queue_at_start`, default `False`
(end-of-clock). -/
def get_queue_mode (db : DB) (team : String) : Bool :=
  (db.prefs team).getD false

/-- `ORDER BY position ASC, id ASC` comparison on queue rows. -/
def qleB (a b : QueueEntry) : Bool :=
  a.position < b.position || (a.position == b.position && a.qid ≤ b.qid)

/-- Insertion into a sorted queue list. -/
def qInsert (e : QueueEntry) : List QueueEntry → List QueueEntry
  | [] => [e]
  | x :: xs => if qleB e x then e :: x :: xs else x :: qInsert e xs

/-- Insertion sort realizing the SQL `ORDER BY position ASC, id ASC`. -/
def qSort : List QueueEntry → List QueueEntry
  | [] => []
  | x :: xs => qInsert x (qSort xs)

/-- `get_team_queue(team)`: the team's queue rows ordered by
`(position, id)`. -/
def get_team_queue (db : DB) (team : String) : List QueueEntry :=
  qSort (db.queue.filter (fun q => q.team == team))

/-- The SQL availability filter of `get_team_queue_top_available`:
the joined player row exists, `franchise IS NULL OR franchise = ''`,
and `COALESCE(eligible, 1) = 1`. -/
def availB (db : DB) (q : QueueEntry) : Bool :=
  match findPlayer db q.playerId with
  | none => false
  | some p => !(truthyStr p.franchise) && (p.eligible.getD 1 == 1)

/-- `get_team_queue_top_available(team)`: the first entry (by
`position, id`) of the team's queue whose player is currently unowned and
eligible — entries whose player is unavailable are skipped by the SQL
`WHERE`, they do not block later entries. -/
def get_team_queue_top_available (db : DB) (team : String) : Option Nat :=
  (qSort (db.queue.filter (fun q => q.team == team && availB db q))).head?.map (·.playerId)

/-- The Discord webhook call: an external effect that may fail; it reads the
DB but never writes it. `fails` abstracts delivery failure. -/
def notifyResult (fails : Bool) : Except String Unit :=
  if fails then Except.error "discord failed" else Except.ok ()

/-- `perform_draft_internal(team, player_id, draft_order_id)`:
validate the player (found, unowned, eligible — note the Python
`int(prow["eligible"] or 0) != 1` check), then set the player's franchise,
set the pick's `player_id`/`drafted_at`, commit, fire the Discord
notification inside `try/except` (failure is swallowed), and delete the
player from every team's queue. Returns the new state plus the raised
error, if any; a raise happens before any write, leaving the state
unchanged. -/
def perform_draft_internal (db : DB) (nowUtc : Int) (fails : Bool)
    (team : String) (pid : Nat) (doid : Nat) : DB × Option String :=
  match findPlayer db pid with
  | none => (db, some "player not found")
  | some p =>
    if truthyStr p.franchise then (db, some "player already owned")
    else if p.eligible.getD 0 != 1 then (db, some "player not eligible")
    else
      let db1 : DB := { db with
        players := db.players.map
          (fun q => if q.id == pid then { q with franchise := some team } else q),
        order := db.order.map
          (fun r => if r.id == doid then { r with playerId := some pid, draftedAt := some nowUtc } else r) }
      let db2 : DB :=
        match notifyResult fails with
        | Except.ok _ => db1
        | Except.error _ => db1
      ({ db2 with queue := db2.queue.filter (fun q => q.playerId != pid) }, none)

/-- Phase-1 scan of `enforce_queue_actions`: first pick in original order
that is undrafted and whose `next_deadlines[i]` has passed (picks whose
deadline has not passed are skipped, the scan continues). -/
def firstDueGo (s : Sched) (now : Int) : Nat → List PickRow → Option (Nat × PickRow)
  | _, [] => none
  | i, r :: rest =>
    if pickTaken r then firstDueGo s now (i + 1) rest
    else if now ≥ s.nd i then some (i, r)
    else firstDueGo s now (i + 1) rest

/-- Phase 1 (end-of-clock) of `enforce_queue_actions`: find the first
undrafted pick past its original-order deadline; if that team uses
end-of-clock mode (`get_queue_mode` false) and
`get_team_queue_top_available` yields a player, draft it via
`perform_draft_internal`; then `break` — a single pick per invocation.
(`notify_if_new_on_clock` in the `finally` writes only `app_meta` and
e-mail, never the drafting state, and is elided.) -/
def enforce_queue_actions_phase1 (db : DB) (now : Int) (nowUtc : Int)
    (fails : Bool) : DB × Option String :=
  if db.order.isEmpty then (db, none)
  else
    match firstDueGo db.sched now 0 db.order with
    | none => (db, none)
    | some (_, rec) =>
      if !(get_queue_mode db rec.team) then
        match get_team_queue_top_available db rec.team with
        | some pid => perform_draft_internal db nowUtc fails rec.team pid rec.id
        | none => (db, none)
      else (db, none)

/-- Python truthiness of the session strings in `api_draft`
(`if not my_team:`). -/
def strFalsy : Option String → Bool
  | none => true
  | some sv => sv == ""

/-- The draft attempt of `api_draft` (lines 2141-2191): request/session
gating, player validation (`int(prow[3]) != 1` raises `TypeError` on a
`NULL` eligible — modelled as an abort, which likewise happens before any
write), then the same assign / swallow-notify / queue-cleanup sequence as
`perform_draft_internal`. The trailing `enforce_queue_actions()` tick is a
separate (auto) attempt modelled by `enforce_queue_actions_phase1` and is
not part of this single attempt. -/
def api_draft_core (db : DB) (now : Int) (nowUtc : Int) (fails : Bool)
    (sessTeam authTeam : Option String) (pid : Nat) : DB × Option String :=
  match get_current_on_clock_pick db.sched now with
  | Except.error e => (db, some e)
  | Except.ok none => (db, some "Draft is complete")
  | Except.ok (some current) =>
    if authTeam != sessTeam then (db, some "Not logged in for this team")
    else if strFalsy sessTeam then (db, some "Select your team first")
    else if sessTeam != some current.team then (db, some "Not your pick")
    else
      match findPlayer db pid with
      | none => (db, some "Player not found")
      | some p =>
        if truthyStr p.franchise then (db, some "Player already owned")
        else
          match p.eligible with
          | none => (db, some "TypeError: eligible is NULL")
          | some e =>
            if e != 1 then (db, some "Player is not draft-eligible")
            else
              let db1 : DB := { db with
                players := db.players.map
                  (fun q => if q.id == pid then { q with franchise := sessTeam } else q),
                order := db.order.map
                  (fun r => if r.id == current.id then { r with playerId := some pid, draftedAt := some nowUtc } else r) }
              let db2 : DB :=
                match notifyResult fails with
                | Except.ok _ => db1
                | Except.error _ => db1
              ({ db2 with queue := db2.queue.filter (fun q => q.playerId != pid) }, none)

/-! ### Concrete states used by the per-claim witnesses and counterexamples -/

/-- An undrafted pick row. -/
def mkPickU (pid rd pk : Nat) (tm : String) : PickRow :=
  { id := pid, round := rd, pick := pk, team := tm, playerId := none, draftedAt := none }

/-- C1 witness state: two undrafted picks, no overrides. -/
def c1s : Sched := { picks := [mkPickU 1 1 1 "A", mkPickU 2 1 2 "B"], ov := fun _ => none }

/-- C2 witness state: three undrafted picks, no overrides. -/
def c2s : Sched :=
  { picks := [mkPickU 1 1 1 "A", mkPickU 2 1 2 "B", mkPickU 3 1 3 "C"], ov := fun _ => none }

/-- C1 counterexample state: seven undrafted picks at base slots day 0
09:00-15:00.  At 15:00 the first six are missed, so day 0's evening queue
has six entries and the scheduler raises `ValueError` at queue position
4's same-day deadline (hour 19 + 4 + 1 = 24). -/
def c1cs : Sched :=
  { picks := [mkPickU 1 1 1 "A", mkPickU 2 1 2 "B", mkPickU 3 1 3 "C", mkPickU 4 1 4 "D",
              mkPickU 5 1 5 "E", mkPickU 6 1 6 "F", mkPickU 7 1 7 "G"],
    ov := fun _ => none }

/-- C1/C2 counterexample time: day 0, 15:00. -/
def c1cnow : Int := mkTime 0 15

/-- C2 counterexample state: identical seven-pick layout (separate
definition so the two counterexamples share no declaration). -/
def c2cs : Sched :=
  { picks := [mkPickU 1 1 1 "A", mkPickU 2 1 2 "B", mkPickU 3 1 3 "C", mkPickU 4 1 4 "D",
              mkPickU 5 1 5 "E", mkPickU 6 1 6 "F", mkPickU 7 1 7 "G"],
    ov := fun _ => none }

/-- C4 counterexample state: four undrafted picks; overrides place picks
2, 3, 4 on day 1 at 16:00, 15:00, 17:00, so day 1's miss bucket holds
indices `[1, 2]` whose designated times are out of index order, and index
0 (missed on day 0) carries over into day 1's queue. -/
def c4s : Sched :=
  { picks := [mkPickU 1 1 1 "A", mkPickU 2 1 2 "B", mkPickU 3 1 3 "C", mkPickU 4 1 4 "D"],
    ov := fun n =>
      if n = 2 then some (mkTime 1 16)
      else if n = 3 then some (mkTime 1 15)
      else if n = 4 then some (mkTime 1 17)
      else none }

/-- C4 counterexample time: day 1, 17:30. -/
def c4now : Int := mkTime 1 17 + 30

/-- C5 counterexample state: two undrafted picks at base slots 09:00 and
10:00 of day 0. -/
def c5s : Sched := { picks := [mkPickU 1 1 1 "A", mkPickU 2 1 2 "B"], ov := fun _ => none }

/-- C5 counterexample time: day 1, 03:00 — past pick 0's overflow-slot
calendar day, but before that slot's 09:00-next-day deadline. -/
def c5now : Int := mkTime 1 3

/-- C8 counterexample state: pick id 1 overridden to day 4000 (beyond the
3650-day walk window measured from day 0, the earliest designated day). -/
def c8s : Sched :=
  { picks := [mkPickU 1 1 1 "A", mkPickU 2 1 2 "B"],
    ov := fun n => if n = 1 then some (mkTime 4000 9) else none }

/-- C8 counterexample time: day 1, 00:00 (pick 0's deadline, the designated
time of pick 1, has passed). -/
def c8now : Int := mkTime 1 0

/-- C9 witness state: two undrafted picks, no overrides. -/
def c9s : Sched := { picks := [mkPickU 1 1 1 "A", mkPickU 2 1 2 "B"], ov := fun _ => none }

/-- C6 witness state: player 1 ineligible, player 2 available, one
undrafted pick, player 2 queued by two teams. -/
def c6db : DB :=
  { players := [{ id := 1, franchise := none, eligible := some 0 },
                { id := 2, franchise := none, eligible := some 1 }],
    order := [mkPickU 10 1 1 "T"],
    queue := [{ qid := 1, team := "T", playerId := 2, position := 1 },
              { qid := 2, team := "U", playerId := 2, position := 1 }],
    prefs := fun _ => none,
    ov := fun _ => none }

/-- C7 state: team `T` is on the clock past its deadline with default
end-of-clock policy; its queue head (position 1) is player 1, who is not
eligible; player 2 at position 2 is available. -/
def c7db : DB :=
  { players := [{ id := 1, franchise := none, eligible := some 0 },
                { id := 2, franchise := none, eligible := some 1 }],
    order := [mkPickU 10 1 1 "T", mkPickU 11 1 2 "U"],
    queue := [{ qid := 1, team := "T", playerId := 1, position := 1 },
              { qid := 2, team := "T", playerId := 2, position := 2 }],
    prefs := fun _ => none,
    ov := fun _ => none }

/-- C7 time: day 0, 11:00 — past pick 0's deadline (pick 1's designated
time, 10:00). -/
def c7now : Int := mkTime 0 11

/-! ## Lemmas about the dict model -/

theorem any_key_iff_mem_dkeys (m : Dict) (k : Nat) :
    m.any (fun p => p.1 == k) = true ↔ k ∈ dkeys m := by
  simp [dkeys, List.any_eq_true, List.mem_map, beq_iff_eq]

theorem lookup_map_replace (m : Dict) (k : Nat) (v : Int) (h : k ∈ dkeys m) :
    List.lookup k (m.map (fun p => if p.1 == k then (k, v) else p)) = some v := by
  induction m with
  | nil => simp [dkeys] at h
  | cons a t ih =>
    rcases a with ⟨a1, a2⟩
    by_cases hk : a1 = k
    · subst hk
      simp [List.lookup_cons]
    · have h' : k ∈ dkeys t := by
        simp only [dkeys, List.map_cons, List.mem_cons] at h
        rcases h with h | h
        · exact absurd h.symm hk
        · simpa [dkeys] using h
      have hne : (k == a1) = false := by simp [Ne.symm hk]
      simp only [List.map_cons, beq_iff_eq, if_neg hk, List.lookup_cons, hne]
      simpa using ih h'

theorem lookup_dinsert_self (m : Dict) (k : Nat) (v : Int) :
    List.lookup k (dinsert m k v) = some v := by
  unfold dinsert
  by_cases h : m.any (fun p => p.1 == k) = true
  · rw [if_pos h]
    exact lookup_map_replace m k v ((any_key_iff_mem_dkeys m k).mp h)
  · rw [if_neg h]
    have hnone : List.lookup k m = none := by
      rw [List.lookup_eq_none_iff]
      intro p hp
      simp only [List.any_eq_true, beq_iff_eq, not_exists, not_and] at h
      simp [bne_iff_ne, Ne.symm (h p hp)]
    rw [List.lookup_append, hnone]
    simp [List.lookup_cons]

theorem lookup_map_replace_ne (m : Dict) (k k' : Nat) (v : Int) (h : k' ≠ k) :
    List.lookup k' (m.map (fun p => if p.1 == k then (k, v) else p)) = List.lookup k' m := by
  induction m with
  | nil => simp
  | cons a t ih =>
    rcases a with ⟨a1, a2⟩
    by_cases hk : a1 = k
    · subst hk
      have h2 : (k' == a1) = false := by simp [h]
      simpa [List.lookup_cons, h2] using ih
    · simp only [List.map_cons, beq_iff_eq, if_neg hk, List.lookup_cons]
      by_cases h2 : k' = a1
      · simp [h2]
      · have h3 : (k' == a1) = false := by simp [h2]
        simp only [h3]
        simpa using ih

theorem lookup_dinsert_ne (m : Dict) (k k' : Nat) (v : Int) (h : k' ≠ k) :
    List.lookup k' (dinsert m k v) = List.lookup k' m := by
  unfold dinsert
  by_cases hc : m.any (fun p => p.1 == k) = true
  · rw [if_pos hc]
    exact lookup_map_replace_ne m k k' v h
  · rw [if_neg hc, List.lookup_append]
    have hko : List.lookup k' [(k, v)] = none := by
      have hne : (k' == k) = false := by simp [h]
      simp [List.lookup_cons, hne]
    rw [hko]
    cases List.lookup k' m <;> rfl

theorem dkeys_dinsert (m : Dict) (k : Nat) (v : Int) :
    dkeys (dinsert m k v) = if k ∈ dkeys m then dkeys m else dkeys m ++ [k] := by
  unfold dinsert
  by_cases hc : m.any (fun p => p.1 == k) = true
  · rw [if_pos hc, if_pos ((any_key_iff_mem_dkeys m k).mp hc)]
    simp only [dkeys, List.map_map]
    apply List.map_congr_left
    intro p _
    by_cases hp : p.1 = k
    · simp [hp]
    · simp [hp]
  · have hm : ¬ k ∈ dkeys m := fun hmem =>
      hc ((any_key_iff_mem_dkeys m k).mpr hmem)
    rw [if_neg hc, if_neg hm]
    simp [dkeys]

theorem length_dinsert (m : Dict) (k : Nat) (v : Int) :
    (dinsert m k v).length = if k ∈ dkeys m then m.length else m.length + 1 := by
  unfold dinsert
  by_cases hc : m.any (fun p => p.1 == k) = true
  · rw [if_pos hc, if_pos ((any_key_iff_mem_dkeys m k).mp hc)]
    simp
  · have hm : ¬ k ∈ dkeys m := fun hmem =>
      hc ((any_key_iff_mem_dkeys m k).mpr hmem)
    rw [if_neg hc, if_neg hm]
    simp

theorem length_dinsert_ge (m : Dict) (k : Nat) (v : Int) :
    m.length ≤ (dinsert m k v).length := by
  rw [length_dinsert]
  split <;> omega

theorem nodup_dkeys_dinsert (m : Dict) (k : Nat) (v : Int)
    (h : (dkeys m).Nodup) : (dkeys (dinsert m k v)).Nodup := by
  rw [dkeys_dinsert]
  by_cases hm : k ∈ dkeys m
  · rwa [if_pos hm]
  · rw [if_neg hm]
    simp [List.nodup_append, h, hm]

theorem mem_dkeys_dinsert_self (m : Dict) (k : Nat) (v : Int) :
    k ∈ dkeys (dinsert m k v) := by
  rw [dkeys_dinsert]
  by_cases hm : k ∈ dkeys m
  · rwa [if_pos hm]
  · rw [if_neg hm]; simp

theorem mem_dkeys_dinsert_of_mem (m : Dict) (k k' : Nat) (v : Int)
    (h : k' ∈ dkeys m) : k' ∈ dkeys (dinsert m k v) := by
  rw [dkeys_dinsert]
  split <;> simp [h]

theorem mem_dkeys_dinsert_elim (m : Dict) (k k' : Nat) (v : Int)
    (h : k' ∈ dkeys (dinsert m k v)) : k' ∈ dkeys m ∨ k' = k := by
  rw [dkeys_dinsert] at h
  by_cases hm : k ∈ dkeys m
  · rw [if_pos hm] at h; exact Or.inl h
  · rw [if_neg hm] at h
    simpa using h

theorem lookup_isSome_iff_mem_dkeys (m : Dict) (k : Nat) :
    (List.lookup k m).isSome = true ↔ k ∈ dkeys m := by
  rw [List.lookup_isSome_iff]
  simp only [dkeys, List.mem_map, beq_iff_eq]
  constructor
  · rintro ⟨p, hp, rfl⟩; exact ⟨p, hp, rfl⟩
  · rintro ⟨p, hp, rfl⟩; exact ⟨p, hp, rfl⟩

theorem lookup_eq_none_iff_not_mem (m : Dict) (k : Nat) :
    List.lookup k m = none ↔ ¬ k ∈ dkeys m := by
  rw [← lookup_isSome_iff_mem_dkeys]
  cases List.lookup k m <;> simp

theorem dict_length_eq_dkeys_length (m : Dict) : m.length = (dkeys m).length := by
  simp [dkeys]

/-! ## Lemmas about pass-1 classification -/

theorem classify_go_bucket (s : Sched) (now : Int) (l : List Nat)
    (acc : (Int → List Nat) × Dict) (d : Int) :
    (l.foldl
      (fun acc i =>
        if now ≥ s.nd i then
          (addBucket acc.1 (dayOf (s.designatedAt i)) i, acc.2)
        else (acc.1, dinsert acc.2 i (s.designatedAt i))) acc).1 d =
      acc.1 d ++ l.filter (fun i => decide (now ≥ s.nd i) && decide (dayOf (s.designatedAt i) = d)) := by
  induction l generalizing acc with
  | nil => simp
  | cons i t ih =>
    by_cases hm : now ≥ s.nd i
    · by_cases hd : dayOf (s.designatedAt i) = d
      · simp only [List.foldl_cons, if_pos hm, ih, List.filter_cons,
          decide_eq_true hm, decide_eq_true hd, Bool.true_and, addBucket, if_pos hd.symm]
        rw [hd, List.append_assoc]
        simp
      · simp only [List.foldl_cons, if_pos hm, ih, List.filter_cons,
          decide_eq_true hm, Bool.true_and, addBucket]
        have hne : d ≠ dayOf (s.designatedAt i) := fun hx => hd hx.symm
        rw [if_neg hne]
        simp [hd]
    · simp only [List.foldl_cons, if_neg hm, ih, List.filter_cons]
      have : decide (now ≥ s.nd i) = false := by simp [hm]
      simp [this]

theorem classify_bucket (s : Sched) (now : Int) (d : Int) :
    (classify s now).1 d =
      s.undraftedIdxs.filter
        (fun i => decide (now ≥ s.nd i) && decide (dayOf (s.designatedAt i) = d)) := by
  unfold classify
  rw [classify_go_bucket]
  rfl

theorem classify_go_sched_frame (s : Sched) (now : Int) (l : List Nat)
    (acc : (Int → List Nat) × Dict) (k : Nat) (hk : ¬ k ∈ l) :
    List.lookup k
      (l.foldl
        (fun acc i =>
          if now ≥ s.nd i then
            (addBucket acc.1 (dayOf (s.designatedAt i)) i, acc.2)
          else (acc.1, dinsert acc.2 i (s.designatedAt i))) acc).2 =
      List.lookup k acc.2 := by
  induction l generalizing acc with
  | nil => rfl
  | cons i t ih =>
    have hki : k ≠ i := fun h => hk (h ▸ List.mem_cons_self i t)
    have hkt : ¬ k ∈ t := fun h => hk (List.mem_cons_of_mem i h)
    by_cases hm : now ≥ s.nd i
    · simp only [List.foldl_cons, if_pos hm]
      exact ih _ hkt
    · simp only [List.foldl_cons, if_neg hm]
      rw [ih _ hkt]
      exact lookup_dinsert_ne _ _ _ _ hki

theorem classify_go_sched_lookup (s : Sched) (now : Int) (l : List Nat)
    (acc : (Int → List Nat) × Dict) (i : Nat) (hnd : l.Nodup) (hi : i ∈ l)
    (hm : ¬ now ≥ s.nd i) :
    List.lookup i
      (l.foldl
        (fun acc i =>
          if now ≥ s.nd i then
            (addBucket acc.1 (dayOf (s.designatedAt i)) i, acc.2)
          else (acc.1, dinsert acc.2 i (s.designatedAt i))) acc).2 =
      some (s.designatedAt i) := by
  induction l generalizing acc with
  | nil => cases hi
  | cons x t ih =>
    rcases List.mem_cons.mp hi with rfl | hit
    · have hnt : ¬ i ∈ t := (List.nodup_cons.mp hnd).1
      simp only [List.foldl_cons, if_neg hm]
      rw [classify_go_sched_frame s now t _ i hnt]
      exact lookup_dinsert_self _ _ _
    · have hnt : t.Nodup := (List.nodup_cons.mp hnd).2
      by_cases hx : now ≥ s.nd x
      · simp only [List.foldl_cons, if_pos hx]
        exact ih _ hnt hit
      · simp only [List.foldl_cons, if_neg hx]
        exact ih _ hnt hit

theorem classify_sched_lookup (s : Sched) (now : Int) (i : Nat)
    (hi : i ∈ s.undraftedIdxs) (hm : ¬ now ≥ s.nd i) :
    List.lookup i (classify s now).2 = some (s.designatedAt i) := by
  unfold classify
  exact classify_go_sched_lookup s now _ _ i
    (List.Nodup.filter _ (List.nodup_range s.total)) hi hm

theorem classify_go_dkeys (s : Sched) (now : Int) (l : List Nat)
    (acc : (Int → List Nat) × Dict) (hnd : l.Nodup)
    (hfresh : ∀ k ∈ l, ¬ k ∈ dkeys acc.2) :
    dkeys
      (l.foldl
        (fun acc i =>
          if now ≥ s.nd i then
            (addBucket acc.1 (dayOf (s.designatedAt i)) i, acc.2)
          else (acc.1, dinsert acc.2 i (s.designatedAt i))) acc).2 =
      dkeys acc.2 ++ l.filter (fun i => !(decide (now ≥ s.nd i))) := by
  induction l generalizing acc with
  | nil => simp
  | cons i t ih =>
    have hnt : t.Nodup := (List.nodup_cons.mp hnd).2
    have hit : ¬ i ∈ t := (List.nodup_cons.mp hnd).1
    by_cases hm : now ≥ s.nd i
    · have hrec := ih (addBucket acc.1 (dayOf (s.designatedAt i)) i, acc.2) hnt
        (fun k hk => hfresh k (List.mem_cons_of_mem i hk))
      simp only [List.foldl_cons, if_pos hm]
      rw [hrec]
      have hd : decide (now ≥ s.nd i) = true := by simp [hm]
      simp [List.filter_cons, hd]
    · have hfi : ¬ i ∈ dkeys acc.2 := hfresh i (List.mem_cons_self i t)
      have hstep : dkeys (dinsert acc.2 i (s.designatedAt i)) = dkeys acc.2 ++ [i] := by
        rw [dkeys_dinsert, if_neg hfi]
      have hfresh' : ∀ k ∈ t, ¬ k ∈ dkeys (acc.1, dinsert acc.2 i (s.designatedAt i)).2 := by
        intro k hk
        simp only [hstep, List.mem_append, List.mem_singleton]
        rintro (h | h)
        · exact hfresh k (List.mem_cons_of_mem i hk) h
        · exact hit (h ▸ hk)
      have hrec := ih (acc.1, dinsert acc.2 i (s.designatedAt i)) hnt hfresh'
      simp only [List.foldl_cons, if_neg hm]
      rw [hrec]
      have hd : decide (now ≥ s.nd i) = false := by simp [hm]
      simp [List.filter_cons, hd, hstep]

theorem classify_dkeys (s : Sched) (now : Int) :
    dkeys (classify s now).2 =
      s.undraftedIdxs.filter (fun i => !(decide (now ≥ s.nd i))) := by
  have h := classify_go_dkeys s now s.undraftedIdxs (fun _ => [], [])
    (List.Nodup.filter _ (List.nodup_range s.total))
    (by intro k _; simp [dkeys])
  simpa [classify] using h

/-! ## Lemmas about the evening-queue processing -/

theorem pqGo_carry_eq (now day : Int) (qlen : Nat) (q : List Nat) :
    ∀ (j : Nat) (sched : Dict) (carry : List Nat),
      (pqGoT now day qlen j q sched carry).2 = carry ++ pqRemiss now day qlen j q := by
  induction q with
  | nil => intro j sched carry; simp [pqGoT, pqRemiss]
  | cons idx rest ih =>
    intro j sched carry
    by_cases hm : now ≥ slotDeadlineT day j qlen
    · simp only [pqGoT, if_pos hm, pqRemiss, ih]
      simp
    · simp only [pqGoT, if_neg hm, pqRemiss, ih]

theorem pqRemiss_sublist (now day : Int) (qlen : Nat) (q : List Nat) :
    ∀ j : Nat, (pqRemiss now day qlen j q).Sublist q := by
  induction q with
  | nil => intro j; simp [pqRemiss]
  | cons idx rest ih =>
    intro j
    by_cases hm : now ≥ slotDeadlineT day j qlen
    · simp only [pqRemiss, if_pos hm]
      exact List.Sublist.cons₂ idx (ih (j + 1))
    · simp only [pqRemiss, if_neg hm]
      exact List.Sublist.cons idx (ih (j + 1))

theorem pqGo_lookup_frame (now day : Int) (qlen : Nat) (q : List Nat) :
    ∀ (j : Nat) (sched : Dict) (carry : List Nat) (k : Nat), ¬ k ∈ q →
      List.lookup k (pqGoT now day qlen j q sched carry).1 = List.lookup k sched := by
  induction q with
  | nil => intro j sched carry k _; rfl
  | cons idx rest ih =>
    intro j sched carry k hk
    have hki : k ≠ idx := fun h => hk (h ▸ List.mem_cons_self idx rest)
    have hkr : ¬ k ∈ rest := fun h => hk (List.mem_cons_of_mem idx h)
    by_cases hm : now ≥ slotDeadlineT day j qlen
    · simp only [pqGoT, if_pos hm]
      exact ih _ _ _ _ hkr
    · simp only [pqGoT, if_neg hm]
      rw [ih _ _ _ _ hkr]
      exact lookup_dinsert_ne _ _ _ _ hki

theorem pqGo_dkeys_mem (now day : Int) (qlen : Nat) (q : List Nat) :
    ∀ (j : Nat) (sched : Dict) (carry : List Nat) (k : Nat), k ∈ dkeys sched →
      k ∈ dkeys (pqGoT now day qlen j q sched carry).1 := by
  induction q with
  | nil => intro j sched carry k hk; exact hk
  | cons idx rest ih =>
    intro j sched carry k hk
    by_cases hm : now ≥ slotDeadlineT day j qlen
    · simp only [pqGoT, if_pos hm]
      exact ih _ _ _ _ hk
    · simp only [pqGoT, if_neg hm]
      exact ih _ _ _ _ (mem_dkeys_dinsert_of_mem _ _ _ _ hk)

theorem pqGo_dkeys_sub (now day : Int) (qlen : Nat) (q : List Nat) :
    ∀ (j : Nat) (sched : Dict) (carry : List Nat) (k : Nat),
      k ∈ dkeys (pqGoT now day qlen j q sched carry).1 →
      k ∈ dkeys sched ∨ k ∈ q := by
  induction q with
  | nil => intro j sched carry k hk; exact Or.inl hk
  | cons idx rest ih =>
    intro j sched carry k hk
    by_cases hm : now ≥ slotDeadlineT day j qlen
    · simp only [pqGoT, if_pos hm] at hk
      rcases ih _ _ _ _ hk with h | h
      · exact Or.inl h
      · exact Or.inr (List.mem_cons_of_mem idx h)
    · simp only [pqGoT, if_neg hm] at hk
      rcases ih _ _ _ _ hk with h | h
      · rcases mem_dkeys_dinsert_elim _ _ _ _ h with h' | h'
        · exact Or.inl h'
        · exact Or.inr (h' ▸ List.mem_cons_self idx rest)
      · exact Or.inr (List.mem_cons_of_mem idx h)

theorem pqGo_nodup_dkeys (now day : Int) (qlen : Nat) (q : List Nat) :
    ∀ (j : Nat) (sched : Dict) (carry : List Nat), (dkeys sched).Nodup →
      (dkeys (pqGoT now day qlen j q sched carry).1).Nodup := by
  induction q with
  | nil => intro j sched carry h; exact h
  | cons idx rest ih =>
    intro j sched carry h
    by_cases hm : now ≥ slotDeadlineT day j qlen
    · simp only [pqGoT, if_pos hm]
      exact ih _ _ _ h
    · simp only [pqGoT, if_neg hm]
      exact ih _ _ _ (nodup_dkeys_dinsert _ _ _ h)

theorem pqGo_length_ge (now day : Int) (qlen : Nat) (q : List Nat) :
    ∀ (j : Nat) (sched : Dict) (carry : List Nat),
      sched.length ≤ (pqGoT now day qlen j q sched carry).1.length := by
  induction q with
  | nil => intro j sched carry; exact Nat.le_refl _
  | cons idx rest ih =>
    intro j sched carry
    by_cases hm : now ≥ slotDeadlineT day j qlen
    · simp only [pqGoT, if_pos hm]
      exact ih _ _ _
    · simp only [pqGoT, if_neg hm]
      exact Nat.le_trans (length_dinsert_ge sched idx _) (ih _ _ _)

theorem pqGo_cover (now day : Int) (qlen : Nat) (q : List Nat) :
    ∀ (j : Nat) (sched : Dict) (carry : List Nat) (k : Nat), k ∈ q →
      k ∈ dkeys (pqGoT now day qlen j q sched carry).1 ∨
      k ∈ (pqGoT now day qlen j q sched carry).2 := by
  induction q with
  | nil => intro j sched carry k hk; cases hk
  | cons idx rest ih =>
    intro j sched carry k hk
    by_cases hm : now ≥ slotDeadlineT day j qlen
    · simp only [pqGoT, if_pos hm]
      rcases List.mem_cons.mp hk with rfl | hkr
      · right
        rw [pqGo_carry_eq]
        simp
      · exact ih _ _ _ _ hkr
    · simp only [pqGoT, if_neg hm]
      rcases List.mem_cons.mp hk with rfl | hkr
      · left
        exact pqGo_dkeys_mem now day qlen rest _ _ _ _ (mem_dkeys_dinsert_self _ _ _)
      · exact ih _ _ _ _ hkr

theorem pqGo_spec (now day : Int) (qlen : Nat) (q : List Nat) :
    ∀ (j0 : Nat) (sched : Dict) (carry : List Nat), q.Nodup →
      ∀ (jj : Nat) (hj : jj < q.length),
        (now ≥ slotDeadlineT day (j0 + jj) qlen →
          q.get ⟨jj, hj⟩ ∈ (pqGoT now day qlen j0 q sched carry).2 ∧
          List.lookup (q.get ⟨jj, hj⟩) (pqGoT now day qlen j0 q sched carry).1 =
            List.lookup (q.get ⟨jj, hj⟩) sched) ∧
        (¬ now ≥ slotDeadlineT day (j0 + jj) qlen →
          List.lookup (q.get ⟨jj, hj⟩) (pqGoT now day qlen j0 q sched carry).1 =
            some (eveningSlotT day (j0 + jj)) ∧
          ¬ q.get ⟨jj, hj⟩ ∈ pqRemiss now day qlen j0 q) := by
  induction q with
  | nil => intro j0 sched carry _ jj hj; cases hj
  | cons idx rest ih =>
    intro j0 sched carry hnd jj hj
    have hir : ¬ idx ∈ rest := (List.nodup_cons.mp hnd).1
    have hrn : rest.Nodup := (List.nodup_cons.mp hnd).2
    cases jj with
    | zero =>
      have hg0 : (idx :: rest).get ⟨0, hj⟩ = idx := rfl
      rw [hg0]
      simp only [Nat.add_zero]
      constructor
      · intro hm
        constructor
        · simp only [pqGoT, if_pos hm]
          rw [pqGo_carry_eq]
          simp
        · simp only [pqGoT, if_pos hm]
          exact pqGo_lookup_frame now day qlen rest _ _ _ _ hir
      · intro hm
        constructor
        · simp only [pqGoT, if_neg hm]
          rw [pqGo_lookup_frame now day qlen rest _ _ _ _ hir]
          exact lookup_dinsert_self _ _ _
        · simp only [pqRemiss, if_neg hm]
          intro hmem
          exact hir (List.Sublist.mem hmem (pqRemiss_sublist now day qlen rest (j0 + 1)))
    | succ j' =>
      have hj' : j' < rest.length := by
        simpa using Nat.lt_of_succ_lt_succ hj
      have hget : (idx :: rest).get ⟨j' + 1, hj⟩ = rest.get ⟨j', hj'⟩ := rfl
      have hmem : rest.get ⟨j', hj'⟩ ∈ rest := List.get_mem rest j' hj'
      have hne : rest.get ⟨j', hj'⟩ ≠ idx := fun h => hir (h ▸ hmem)
      have harith : j0 + (j' + 1) = (j0 + 1) + j' := by omega
      rw [hget, harith]
      by_cases hm : now ≥ slotDeadlineT day j0 qlen
      · have hspec := ih (j0 + 1) sched (carry ++ [idx]) hrn j' hj'
        simp only [pqGoT, if_pos hm]
        constructor
        · intro hd
          exact ⟨(hspec.1 hd).1, (hspec.1 hd).2⟩
        · intro hd
          refine ⟨(hspec.2 hd).1, ?_⟩
          intro hmem2
          simp only [pqRemiss, if_pos hm] at hmem2
          rcases List.mem_cons.mp hmem2 with h | h
          · exact hne h
          · exact (hspec.2 hd).2 h
      · have hspec := ih (j0 + 1) (dinsert sched idx (eveningSlotT day j0)) carry hrn j' hj'
        simp only [pqGoT, if_neg hm]
        constructor
        · intro hd
          refine ⟨(hspec.1 hd).1, ?_⟩
          rw [(hspec.1 hd).2]
          exact lookup_dinsert_ne _ _ _ _ hne
        · intro hd
          refine ⟨(hspec.2 hd).1, ?_⟩
          intro hmem2
          simp only [pqRemiss, if_neg hm] at hmem2
          exact (hspec.2 hd).2 hmem2

/-! ## Lemmas about the day-by-day walkT -/

theorem walk_frame (now : Int) (buckets : Int → List Nat) (cnt : Nat) :
    ∀ (fuel : Nat) (day : Int) (carry : List Nat) (sched : Dict) (k : Nat),
      (∀ d, ¬ k ∈ buckets d) → ¬ k ∈ carry →
      List.lookup k (walkT now buckets cnt fuel day carry sched).1 = List.lookup k sched ∧
      ¬ k ∈ (walkT now buckets cnt fuel day carry sched).2.1 := by
  intro fuel
  induction fuel with
  | zero => intro day carry sched k _ hc; exact ⟨rfl, hc⟩
  | succ n ih =>
    intro day carry sched k hb hc
    by_cases hlen : sched.length < cnt
    · simp only [walkT, if_pos hlen]
      have hkq : ¬ k ∈ buckets day ++ carry := by
        intro h
        rcases List.mem_append.mp h with h | h
        · exact hb day h
        · exact hc h
      have hframe := pqGo_lookup_frame now day (buckets day ++ carry).length
        (buckets day ++ carry) 0 sched [] k hkq
      have hcarry' : ¬ k ∈ (processQueueT now day (buckets day ++ carry) sched).2 := by
        unfold processQueueT
        rw [pqGo_carry_eq]
        simp only [List.nil_append]
        intro h
        exact hkq (List.Sublist.mem h (pqRemiss_sublist now day _ _ 0))
      have := ih (day + 1) (processQueueT now day (buckets day ++ carry) sched).2
        (processQueueT now day (buckets day ++ carry) sched).1 k hb hcarry'
      exact ⟨this.1.trans hframe, this.2⟩
    · simp only [walkT, if_neg hlen]
      exact ⟨by trivial, hc⟩

theorem walk_day_or_length (now : Int) (buckets : Int → List Nat) (cnt : Nat) :
    ∀ (fuel : Nat) (day : Int) (carry : List Nat) (sched : Dict),
      (walkT now buckets cnt fuel day carry sched).2.2 = day + fuel ∨
      cnt ≤ (walkT now buckets cnt fuel day carry sched).1.length := by
  intro fuel
  induction fuel with
  | zero => intro day carry sched; left; simp [walkT]
  | succ n ih =>
    intro day carry sched
    by_cases hlen : sched.length < cnt
    · simp only [walkT, if_pos hlen]
      rcases ih (day + 1) (processQueueT now day (buckets day ++ carry) sched).2
        (processQueueT now day (buckets day ++ carry) sched).1 with h | h
      · left; rw [h]; omega
      · right; exact h
    · simp only [walkT, if_neg hlen]
      right; omega

theorem walk_keys (now : Int) (buckets : Int → List Nat) (cnt : Nat)
    (P : Nat → Prop) (hbp : ∀ d k, k ∈ buckets d → P k) :
    ∀ (fuel : Nat) (day : Int) (carry : List Nat) (sched : Dict),
      (dkeys sched).Nodup → (∀ k ∈ dkeys sched, P k) → (∀ k ∈ carry, P k) →
      (dkeys (walkT now buckets cnt fuel day carry sched).1).Nodup ∧
      (∀ k ∈ dkeys (walkT now buckets cnt fuel day carry sched).1, P k) ∧
      (∀ k ∈ (walkT now buckets cnt fuel day carry sched).2.1, P k) := by
  intro fuel
  induction fuel with
  | zero => intro day carry sched h1 h2 h3; exact ⟨h1, h2, h3⟩
  | succ n ih =>
    intro day carry sched h1 h2 h3
    by_cases hlen : sched.length < cnt
    · simp only [walkT, if_pos hlen, processQueueT]
      have hq : ∀ k ∈ buckets day ++ carry, P k := by
        intro k hk
        rcases List.mem_append.mp hk with h | h
        · exact hbp day k h
        · exact h3 k h
      apply ih (day + 1)
      · exact pqGo_nodup_dkeys now day _ _ 0 sched [] h1
      · intro k hk
        rcases pqGo_dkeys_sub now day _ _ 0 sched [] k hk with h | h
        · exact h2 k h
        · exact hq k h
      · intro k hk
        rw [pqGo_carry_eq] at hk
        simp only [List.nil_append] at hk
        exact hq k (List.Sublist.mem hk (pqRemiss_sublist now day _ _ 0))
    · simp only [walkT, if_neg hlen]
      exact ⟨h1, h2, h3⟩

theorem walk_cover (now : Int) (buckets : Int → List Nat) (cnt : Nat) :
    ∀ (fuel : Nat) (day : Int) (carry : List Nat) (sched : Dict) (k : Nat),
      (k ∈ dkeys sched ∨ k ∈ carry ∨ ∃ d, day ≤ d ∧ k ∈ buckets d) →
      (k ∈ dkeys (walkT now buckets cnt fuel day carry sched).1 ∨
       k ∈ (walkT now buckets cnt fuel day carry sched).2.1 ∨
       ∃ d, (walkT now buckets cnt fuel day carry sched).2.2 ≤ d ∧ k ∈ buckets d) := by
  intro fuel
  induction fuel with
  | zero => intro day carry sched k h; simpa [walkT] using h
  | succ n ih =>
    intro day carry sched k h
    by_cases hlen : sched.length < cnt
    · simp only [walkT, if_pos hlen]
      apply ih (day + 1)
      have hcov : k ∈ buckets day ++ carry →
          k ∈ dkeys (processQueueT now day (buckets day ++ carry) sched).1 ∨
          k ∈ (processQueueT now day (buckets day ++ carry) sched).2 := by
        intro hq
        exact pqGo_cover now day _ _ 0 sched [] k hq
      rcases h with h | h | ⟨d, hd, hkd⟩
      · left
        exact pqGo_dkeys_mem now day _ _ 0 sched [] k h
      · rcases hcov (List.mem_append.mpr (Or.inr h)) with h' | h'
        · exact Or.inl h'
        · exact Or.inr (Or.inl h')
      · by_cases hdd : d = day
        · subst hdd
          rcases hcov (List.mem_append.mpr (Or.inl hkd)) with h' | h'
          · exact Or.inl h'
          · exact Or.inr (Or.inl h')
        · right; right
          exact ⟨d, by omega, hkd⟩
    · simp only [walkT, if_neg hlen]
      exact h

theorem walk_carry_inv (now : Int) (buckets : Int → List Nat) (cnt : Nat)
    (bday : Nat → Int) (hbn : ∀ d, (buckets d).Nodup)
    (hbd : ∀ d k, k ∈ buckets d → bday k = d) :
    ∀ (fuel : Nat) (day : Int) (carry : List Nat) (sched : Dict),
      carry.Nodup → (∀ k ∈ carry, bday k < day) →
      (walkT now buckets cnt fuel day carry sched).2.1.Nodup ∧
      (∀ k ∈ (walkT now buckets cnt fuel day carry sched).2.1,
        bday k < (walkT now buckets cnt fuel day carry sched).2.2) := by
  intro fuel
  induction fuel with
  | zero => intro day carry sched h1 h2; exact ⟨h1, h2⟩
  | succ n ih =>
    intro day carry sched h1 h2
    by_cases hlen : sched.length < cnt
    · simp only [walkT, if_pos hlen]
      have hqnd : (buckets day ++ carry).Nodup := by
        rw [List.nodup_append]
        refine ⟨hbn day, h1, ?_⟩
        intro a ha hb
        have := hbd day a ha
        have := h2 a hb
        omega
      have hc' : (processQueueT now day (buckets day ++ carry) sched).2.Nodup := by
        unfold processQueueT
        rw [pqGo_carry_eq]
        simp only [List.nil_append]
        exact List.Sublist.nodup (pqRemiss_sublist now day _ _ 0) hqnd
      apply ih (day + 1) _ _ hc'
      intro k hk
      unfold processQueueT at hk
      rw [pqGo_carry_eq] at hk
      simp only [List.nil_append] at hk
      have hkq := List.Sublist.mem hk (pqRemiss_sublist now day _ _ 0)
      rcases List.mem_append.mp hkq with h | h
      · have := hbd day k h; omega
      · have := h2 k h; omega
    · simp only [walkT, if_neg hlen]
      exact ⟨h1, h2⟩

theorem walk_length_ge (now : Int) (buckets : Int → List Nat) (cnt : Nat) :
    ∀ (fuel : Nat) (day : Int) (carry : List Nat) (sched : Dict),
      sched.length ≤ (walkT now buckets cnt fuel day carry sched).1.length := by
  intro fuel
  induction fuel with
  | zero => intro day carry sched; exact Nat.le_refl _
  | succ n ih =>
    intro day carry sched
    by_cases hlen : sched.length < cnt
    · simp only [walkT, if_pos hlen]
      exact Nat.le_trans (pqGo_length_ge now day _ _ 0 sched []) (ih (day + 1) _ _)
    · simp only [walkT, if_neg hlen]
      exact Nat.le_refl _

/-! ## Lemmas about the backstop -/

theorem backstop_lookup_frame (day : Int) (c : List Nat) :
    ∀ (j : Nat) (sched : Dict) (k : Nat), ¬ k ∈ c →
      List.lookup k (backstopGoT day j c sched) = List.lookup k sched := by
  induction c with
  | nil => intro j sched k _; rfl
  | cons idx rest ih =>
    intro j sched k hk
    have hki : k ≠ idx := fun h => hk (h ▸ List.mem_cons_self idx rest)
    have hkr : ¬ k ∈ rest := fun h => hk (List.mem_cons_of_mem idx h)
    simp only [backstopGoT]
    rw [ih _ _ _ hkr]
    exact lookup_dinsert_ne _ _ _ _ hki

theorem backstop_dkeys_mem (day : Int) (c : List Nat) :
    ∀ (j : Nat) (sched : Dict) (k : Nat), k ∈ dkeys sched →
      k ∈ dkeys (backstopGoT day j c sched) := by
  induction c with
  | nil => intro j sched k hk; exact hk
  | cons idx rest ih =>
    intro j sched k hk
    simp only [backstopGoT]
    exact ih _ _ _ (mem_dkeys_dinsert_of_mem _ _ _ _ hk)

theorem backstop_dkeys_of_mem (day : Int) (c : List Nat) :
    ∀ (j : Nat) (sched : Dict) (k : Nat), k ∈ c →
      k ∈ dkeys (backstopGoT day j c sched) := by
  induction c with
  | nil => intro j sched k hk; cases hk
  | cons idx rest ih =>
    intro j sched k hk
    simp only [backstopGoT]
    rcases List.mem_cons.mp hk with rfl | hkr
    · exact backstop_dkeys_mem day rest _ _ _ (mem_dkeys_dinsert_self _ _ _)
    · exact ih _ _ _ hkr

theorem backstop_get (day : Int) (c : List Nat) :
    ∀ (j0 : Nat) (sched : Dict), c.Nodup →
      ∀ (jj : Nat) (hj : jj < c.length),
        List.lookup (c.get ⟨jj, hj⟩) (backstopGoT day j0 c sched) =
          some (eveningSlotT day (j0 + jj)) := by
  induction c with
  | nil => intro j0 sched _ jj hj; cases hj
  | cons idx rest ih =>
    intro j0 sched hnd jj hj
    have hir : ¬ idx ∈ rest := (List.nodup_cons.mp hnd).1
    have hrn : rest.Nodup := (List.nodup_cons.mp hnd).2
    cases jj with
    | zero =>
      have hg0 : (idx :: rest).get ⟨0, hj⟩ = idx := rfl
      rw [hg0]
      simp only [backstopGoT, Nat.add_zero]
      rw [backstop_lookup_frame day rest _ _ _ hir]
      exact lookup_dinsert_self _ _ _
    | succ j' =>
      have hj' : j' < rest.length := by simpa using Nat.lt_of_succ_lt_succ hj
      have hget : (idx :: rest).get ⟨j' + 1, hj⟩ = rest.get ⟨j', hj'⟩ := rfl
      have harith : j0 + (j' + 1) = (j0 + 1) + j' := by omega
      rw [hget, harith]
      simp only [backstopGoT]
      exact ih (j0 + 1) _ hrn j' hj'

/-! ## Miscellaneous structural lemmas -/

theorem mem_undraftedIdxs_iff (s : Sched) (i : Nat) :
    i ∈ s.undraftedIdxs ↔ i < s.total ∧ s.undraftedAt i = true := by
  simp [Sched.undraftedIdxs, List.mem_filter, List.mem_range]

theorem foldl_min_le (xs : List Int) :
    ∀ x : Int, xs.foldl min x ≤ x ∧ ∀ t ∈ xs, xs.foldl min x ≤ t := by
  induction xs with
  | nil => intro x; exact ⟨le_refl x, by simp⟩
  | cons y ys ih =>
    intro x
    have h := ih (min x y)
    constructor
    · exact le_trans (by simpa using h.1) (min_le_left x y)
    · intro t ht
      rcases List.mem_cons.mp ht with rfl | ht'
      · exact le_trans (by simpa using h.1) (min_le_right x t)
      · simpa using h.2 t ht'

theorem startDay_le_designated (s : Sched) (i : Nat) (hi : i < s.total) :
    s.startDay ≤ dayOf (s.designatedAt i) := by
  have hne : ¬ s.picks.isEmpty = true := by
    simp only [List.isEmpty_iff]
    intro h
    rw [Sched.total, h] at hi
    cases hi
  have hmem : s.designatedAt i ∈ s.designatedList := by
    simp only [Sched.designatedList, List.mem_map]
    exact ⟨i, List.mem_range.mpr hi, rfl⟩
  unfold Sched.startDay
  rw [if_neg hne]
  rcases hlist : s.designatedList with _ | ⟨x, xs⟩
  · rw [hlist] at hmem; cases hmem
  · rw [hlist] at hmem
    have hmin := foldl_min_le xs
    have : xs.foldl min x ≤ s.designatedAt i := by
      rcases List.mem_cons.mp hmem with rfl | hm
      · exact (hmin (s.designatedAt i)).1
      · exact (hmin x).2 _ hm
    exact Int.ediv_le_ediv (by norm_num) this

/-! ## Lemmas about the on-clock selection loop -/

theorem keyLtB_true_iff (a b : Int × Nat) :
    keyLtB a b = true ↔ (a.1 < b.1 ∨ (a.1 = b.1 ∧ a.2 < b.2)) := by
  simp [keyLtB]

theorem keyLe_refl (a : Int × Nat) : keyLe a a := Or.inr ⟨rfl, Nat.le_refl _⟩

theorem keyLe_trans {a b c : Int × Nat} (h1 : keyLe a b) (h2 : keyLe b c) :
    keyLe a c := by
  rcases h1 with h1 | ⟨h1, h1'⟩ <;> rcases h2 with h2 | ⟨h2, h2'⟩
  · exact Or.inl (lt_trans h1 h2)
  · exact Or.inl (h2 ▸ h1)
  · exact Or.inl (h1 ▸ h2)
  · exact Or.inr ⟨h1.trans h2, h1'.trans h2'⟩

theorem keyLe_of_keyLtB {a b : Int × Nat} (h : keyLtB a b = true) : keyLe a b := by
  rcases (keyLtB_true_iff a b).mp h with h | ⟨h, h'⟩
  · exact Or.inl h
  · exact Or.inr ⟨h, Nat.le_of_lt h'⟩

theorem keyLe_of_not_keyLtB {a b : Int × Nat} (h : keyLtB a b = false) : keyLe b a := by
  have hn : ¬ (a.1 < b.1 ∨ (a.1 = b.1 ∧ a.2 < b.2)) := by
    intro hx
    rw [(keyLtB_true_iff a b).mpr hx] at h
    cases h
  push_neg at hn
  rcases eq_or_lt_of_le hn.1 with heq | hlt
  · exact Or.inr ⟨heq, hn.2 heq.symm⟩
  · exact Or.inl hlt

theorem pickLoopGo_isSome (eff : Nat → Int) (l : List PickRow) :
    ∀ (i : Nat) (acc : Option (Int × Nat)), acc.isSome →
      (pickLoopGo eff i l acc).isSome := by
  induction l with
  | nil => intro i acc h; exact h
  | cons r rest ih =>
    intro i acc h
    by_cases ht : pickTaken r
    · simp only [pickLoopGo, if_pos ht]
      exact ih _ _ h
    · simp only [pickLoopGo, if_neg ht]
      cases acc with
      | none => cases h
      | some bk =>
        apply ih
        by_cases hk : keyLtB (eff i, i) bk <;> simp [hk]

theorem pickLoopGo_none_iff (eff : Nat → Int) (l : List PickRow) :
    ∀ (i : Nat) (acc : Option (Int × Nat)),
      pickLoopGo eff i l acc = none ↔ (acc = none ∧ ∀ r ∈ l, pickTaken r = true) := by
  induction l with
  | nil => intro i acc; simp [pickLoopGo]
  | cons r rest ih =>
    intro i acc
    by_cases ht : pickTaken r
    · simp only [pickLoopGo, if_pos ht]
      rw [ih]
      constructor
      · rintro ⟨h1, h2⟩
        refine ⟨h1, ?_⟩
        intro x hx
        rcases List.mem_cons.mp hx with rfl | hx'
        · exact ht
        · exact h2 x hx'
      · rintro ⟨h1, h2⟩
        exact ⟨h1, fun x hx => h2 x (List.mem_cons_of_mem r hx)⟩
    · constructor
      · intro h
        exfalso
        have hsome : (pickLoopGo eff i (r :: rest) acc).isSome = true := by
          cases acc with
          | none =>
            simp only [pickLoopGo, if_neg ht]
            exact pickLoopGo_isSome eff rest (i + 1) _ rfl
          | some bk0 =>
            simp only [pickLoopGo, if_neg ht]
            apply pickLoopGo_isSome
            by_cases hk : keyLtB (eff i, i) bk0 <;> simp [hk]
        rw [h] at hsome
        cases hsome
      · rintro ⟨_, h2⟩
        exact absurd (h2 r (List.mem_cons_self r rest)) (by simpa using ht)

theorem pickLoopGo_spec (eff : Nat → Int) (l : List PickRow) :
    ∀ (i : Nat) (acc : Option (Int × Nat)) (bk : Int × Nat),
      pickLoopGo eff i l acc = some bk →
      (acc = some bk ∨
        ∃ j r, l.get? j = some r ∧ pickTaken r = false ∧ bk = (eff (i + j), i + j)) ∧
      (∀ a, acc = some a → keyLe bk a) ∧
      (∀ j r, l.get? j = some r → pickTaken r = false → keyLe bk (eff (i + j), i + j)) := by
  induction l with
  | nil =>
    intro i acc bk h
    have hacc : acc = some bk := h
    refine ⟨Or.inl hacc, ?_, ?_⟩
    · intro a ha
      rw [hacc] at ha
      injection ha with ha'
      rw [ha']
      exact keyLe_refl _
    · intro j rj hj
      simp at hj
  | cons r rest ih =>
    intro i acc bk h
    by_cases ht : pickTaken r
    · simp only [pickLoopGo, if_pos ht] at h
      obtain ⟨hex, hacc, hall⟩ := ih (i + 1) acc bk h
      refine ⟨?_, hacc, ?_⟩
      · rcases hex with h1 | ⟨j, rj, hj, hrj, hbk⟩
        · exact Or.inl h1
        · refine Or.inr ⟨j + 1, rj, by simpa using hj, hrj, ?_⟩
          rw [hbk]
          have harith2 : (i + 1) + j = i + (j + 1) := by omega
          rw [harith2]
      · intro j rj hj hrj
        cases j with
        | zero =>
          simp only [List.get?_cons_zero, Option.some.injEq] at hj
          rw [← hj] at hrj
          rw [ht] at hrj
          cases hrj
        | succ j' =>
          have hj' : rest.get? j' = some rj := by simpa using hj
          have hres := hall j' rj hj' hrj
          have harith : i + (j' + 1) = (i + 1) + j' := by omega
          rw [harith]
          exact hres
    · cases acc with
      | none =>
        simp only [pickLoopGo, if_neg ht] at h
        obtain ⟨hex, haccmin, hall⟩ := ih (i + 1) (some (eff i, i)) bk h
        have hkey : keyLe bk (eff i, i) := haccmin _ rfl
        refine ⟨?_, ?_, ?_⟩
        · rcases hex with h1 | ⟨j, rj, hj, hrj, hbk⟩
          · injection h1 with h1'
            exact Or.inr ⟨0, r, rfl, by simpa using ht, by simpa using h1'.symm⟩
          · refine Or.inr ⟨j + 1, rj, by simpa using hj, hrj, ?_⟩
            rw [hbk]
            have harith2 : (i + 1) + j = i + (j + 1) := by omega
            rw [harith2]
        · intro a ha
          cases ha
        · intro j rj hj hrj
          cases j with
          | zero => simpa using hkey
          | succ j' =>
            have hj' : rest.get? j' = some rj := by simpa using hj
            have hres := hall j' rj hj' hrj
            have harith : i + (j' + 1) = (i + 1) + j' := by omega
            rw [harith]
            exact hres
      | some a0 =>
        simp only [pickLoopGo, if_neg ht] at h
        by_cases hk : keyLtB (eff i, i) a0
        · rw [if_pos hk] at h
          obtain ⟨hex, haccmin, hall⟩ := ih (i + 1) (some (eff i, i)) bk h
          have hkey : keyLe bk (eff i, i) := haccmin _ rfl
          refine ⟨?_, ?_, ?_⟩
          · rcases hex with h1 | ⟨j, rj, hj, hrj, hbk⟩
            · injection h1 with h1'
              exact Or.inr ⟨0, r, rfl, by simpa using ht, by simpa using h1'.symm⟩
            · refine Or.inr ⟨j + 1, rj, by simpa using hj, hrj, ?_⟩
              rw [hbk]
              have harith2 : (i + 1) + j = i + (j + 1) := by omega
              rw [harith2]
          · intro a ha
            injection ha with ha'
            rw [← ha']
            exact keyLe_trans hkey (keyLe_of_keyLtB hk)
          · intro j rj hj hrj
            cases j with
            | zero => simpa using hkey
            | succ j' =>
              have hj' : rest.get? j' = some rj := by simpa using hj
              have hres := hall j' rj hj' hrj
              have harith : i + (j' + 1) = (i + 1) + j' := by omega
              rw [harith]
              exact hres
        · rw [if_neg hk] at h
          obtain ⟨hex, haccmin, hall⟩ := ih (i + 1) (some a0) bk h
          have hbka0 : keyLe bk a0 := haccmin _ rfl
          have hkey : keyLe bk (eff i, i) :=
            keyLe_trans hbka0 (keyLe_of_not_keyLtB (by simpa using hk))
          refine ⟨?_, ?_, ?_⟩
          · rcases hex with h1 | ⟨j, rj, hj, hrj, hbk⟩
            · exact Or.inl h1
            · refine Or.inr ⟨j + 1, rj, by simpa using hj, hrj, ?_⟩
              rw [hbk]
              have harith2 : (i + 1) + j = i + (j + 1) := by omega
              rw [harith2]
          · intro a ha
            injection ha with ha'
            rw [← ha']
            exact hbka0
          · intro j rj hj hrj
            cases j with
            | zero => simpa using hkey
            | succ j' =>
              have hj' : rest.get? j' = some rj := by simpa using hj
              have hres := hall j' rj hj' hrj
              have harith : i + (j' + 1) = (i + 1) + j' := by omega
              rw [harith]
              exact hres

/-! ### Bridging the partial pipeline to its success-path twins

The evening-queue machinery raises `ValueError` past hour 23; the
following lemmas show each stage agrees with its total twin whenever it
returns, succeeds whenever every processed queue is short enough, and
raises exactly the `ValueError` otherwise. -/

theorem datetimeMk_ok_elim (day hour t : Int) (h : datetimeMk day hour = Except.ok t) :
    t = mkTime day hour := by
  unfold datetimeMk at h
  by_cases hc : 0 ≤ hour ∧ hour ≤ 23
  · rw [if_pos hc] at h
    injection h with h'
    exact h'.symm
  · rw [if_neg hc] at h
    cases h

theorem eveningSlot_ok_elim (day : Int) (j : Nat) (t : Int)
    (h : eveningSlot day j = Except.ok t) : t = eveningSlotT day j :=
  datetimeMk_ok_elim _ _ _ h

theorem slotDeadline_ok_elim (day : Int) (j qlen : Nat) (t : Int)
    (h : slotDeadline day j qlen = Except.ok t) : t = slotDeadlineT day j qlen := by
  unfold slotDeadline at h
  unfold slotDeadlineT
  by_cases hc : j + 1 < qlen
  · rw [if_pos hc] at h
    rw [if_pos hc]
    exact datetimeMk_ok_elim _ _ _ h
  · rw [if_neg hc] at h
    rw [if_neg hc]
    exact datetimeMk_ok_elim _ _ _ h

theorem eveningSlot_ok_of_le (day : Int) (j : Nat) (hj : j ≤ 4) :
    eveningSlot day j = Except.ok (eveningSlotT day j) := by
  unfold eveningSlot eveningSlotT datetimeMk
  rw [if_pos]
  unfold END_OF_DAY_MISS_HOUR
  constructor
  · have : (0:Int) ≤ (j:Int) := Int.ofNat_nonneg j
    omega
  · have : (j:Int) ≤ 4 := by exact_mod_cast hj
    omega

theorem eveningSlot_error_of_ge (day : Int) (j : Nat) (hj : 5 ≤ j) :
    eveningSlot day j = Except.error hourValueError := by
  unfold eveningSlot datetimeMk
  rw [if_neg]
  intro hc
  have : (5:Int) ≤ (j:Int) := by exact_mod_cast hj
  unfold END_OF_DAY_MISS_HOUR at hc
  omega

theorem slotDeadline_ok_of_le (day : Int) (j qlen : Nat) (hj : j + 1 < qlen → j ≤ 3) :
    slotDeadline day j qlen = Except.ok (slotDeadlineT day j qlen) := by
  unfold slotDeadline slotDeadlineT datetimeMk
  by_cases hc : j + 1 < qlen
  · rw [if_pos hc, if_pos hc, if_pos]
    have h3 : (j:Int) ≤ 3 := by exact_mod_cast hj hc
    have h0 : (0:Int) ≤ (j:Int) := Int.ofNat_nonneg j
    unfold END_OF_DAY_MISS_HOUR
    omega
  · rw [if_neg hc, if_neg hc, if_pos]
    unfold DAY_FIRST_HOUR
    omega

theorem slotDeadline_error_at4 (day : Int) (qlen : Nat) (h5 : 4 + 1 < qlen) :
    slotDeadline day 4 qlen = Except.error hourValueError := by
  unfold slotDeadline datetimeMk
  rw [if_pos h5, if_neg]
  intro hc
  unfold END_OF_DAY_MISS_HOUR at hc
  omega

theorem pqGo_ok_elim (now day : Int) (qlen : Nat) :
    ∀ (q : List Nat) (j : Nat) (sched : Dict) (carry : List Nat) (r : Dict × List Nat),
      pqGo now day qlen j q sched carry = Except.ok r →
      r = pqGoT now day qlen j q sched carry := by
  intro q
  induction q with
  | nil =>
    intro j sched carry r h
    unfold pqGo at h
    injection h with h'
    rw [← h']
    rfl
  | cons idx rest ih =>
    intro j sched carry r h
    unfold pqGo at h
    unfold pqGoT
    cases hs : eveningSlot day j with
    | error e => rw [hs] at h; cases h
    | ok slot =>
      rw [hs] at h
      cases hd : slotDeadline day j qlen with
      | error e => rw [hd] at h; cases h
      | ok dl =>
        rw [hd] at h
        dsimp only at h
        have hdl : dl = slotDeadlineT day j qlen := slotDeadline_ok_elim _ _ _ _ hd
        have hsl : slot = eveningSlotT day j := eveningSlot_ok_elim _ _ _ hs
        rw [hdl, hsl] at h
        by_cases hge : now ≥ slotDeadlineT day j qlen
        · rw [if_pos hge] at h
          rw [if_pos hge]
          exact ih _ _ _ _ h
        · rw [if_neg hge] at h
          rw [if_neg hge]
          exact ih _ _ _ _ h

theorem pqGo_ok_of_short (now day : Int) (qlen : Nat) (h5 : qlen ≤ 5) :
    ∀ (q : List Nat) (j : Nat) (sched : Dict) (carry : List Nat),
      j + q.length = qlen →
      pqGo now day qlen j q sched carry =
        Except.ok (pqGoT now day qlen j q sched carry) := by
  intro q
  induction q with
  | nil => intro j sched carry _; rfl
  | cons idx rest ih =>
    intro j sched carry hq
    have hj4 : j ≤ 4 := by
      simp only [List.length_cons] at hq
      omega
    unfold pqGo
    unfold pqGoT
    rw [eveningSlot_ok_of_le day j hj4,
      slotDeadline_ok_of_le day j qlen (by intro h; omega)]
    dsimp only
    have hq' : (j + 1) + rest.length = qlen := by
      simp only [List.length_cons] at hq
      omega
    by_cases hge : now ≥ slotDeadlineT day j qlen
    · rw [if_pos hge, if_pos hge]
      exact ih _ _ _ hq'
    · rw [if_neg hge, if_neg hge]
      exact ih _ _ _ hq'

theorem pqGo_error_of_long (now day : Int) (qlen : Nat) (h6 : 6 ≤ qlen) :
    ∀ (q : List Nat) (j : Nat) (sched : Dict) (carry : List Nat),
      j + q.length = qlen → j ≤ 4 →
      pqGo now day qlen j q sched carry = Except.error hourValueError := by
  intro q
  induction q with
  | nil =>
    intro j sched carry hq hj
    simp only [List.length_nil] at hq
    omega
  | cons idx rest ih =>
    intro j sched carry hq hj
    unfold pqGo
    rw [eveningSlot_ok_of_le day j hj]
    dsimp only
    by_cases hj4 : j = 4
    · subst hj4
      rw [slotDeadline_error_at4 day qlen (by omega)]
    · rw [slotDeadline_ok_of_le day j qlen (by intro _; omega)]
      dsimp only
      have hq' : (j + 1) + rest.length = qlen := by
        simp only [List.length_cons] at hq
        omega
      by_cases hge : now ≥ slotDeadlineT day j qlen
      · rw [if_pos hge]
        exact ih _ _ _ hq' (by omega)
      · rw [if_neg hge]
        exact ih _ _ _ hq' (by omega)

theorem processQueue_ok_elim (now day : Int) (queue : List Nat) (sched : Dict)
    (r : Dict × List Nat) (h : processQueue now day queue sched = Except.ok r) :
    r = processQueueT now day queue sched :=
  pqGo_ok_elim now day queue.length queue 0 sched [] r h

theorem processQueue_ok_of_short (now day : Int) (queue : List Nat) (sched : Dict)
    (h5 : queue.length ≤ 5) :
    processQueue now day queue sched = Except.ok (processQueueT now day queue sched) :=
  pqGo_ok_of_short now day queue.length h5 queue 0 sched [] (Nat.zero_add _)

theorem processQueue_error_of_long (now day : Int) (queue : List Nat) (sched : Dict)
    (h6 : 6 ≤ queue.length) :
    processQueue now day queue sched = Except.error hourValueError :=
  pqGo_error_of_long now day queue.length h6 queue 0 sched [] (Nat.zero_add _) (by omega)

theorem walk_ok_elim (now : Int) (buckets : Int → List Nat) (cnt : Nat) :
    ∀ (fuel : Nat) (day : Int) (carry : List Nat) (sched : Dict)
      (w : Dict × List Nat × Int),
      walk now buckets cnt fuel day carry sched = Except.ok w →
      w = walkT now buckets cnt fuel day carry sched := by
  intro fuel
  induction fuel with
  | zero =>
    intro day carry sched w h
    unfold walk at h
    injection h with h'
    rw [← h']
    rfl
  | succ n ih =>
    intro day carry sched w h
    unfold walk at h
    unfold walkT
    by_cases hlen : sched.length < cnt
    · rw [if_pos hlen] at h
      rw [if_pos hlen]
      cases hp : processQueue now day (buckets day ++ carry) sched with
      | error e => rw [hp] at h; cases h
      | ok r =>
        rw [hp] at h
        dsimp only at h
        have hr : r = processQueueT now day (buckets day ++ carry) sched :=
          processQueue_ok_elim _ _ _ _ _ hp
        rw [hr] at h
        exact ih _ _ _ _ h
    · rw [if_neg hlen] at h
      rw [if_neg hlen]
      injection h with h'
      rw [← h']

theorem walkResult_ok_elim (s : Sched) (now : Int) (w : Dict × List Nat × Int)
    (h : walkResult s now = Except.ok w) : w = walkResultT s now :=
  walk_ok_elim now (classify s now).1 s.undraftedIdxs.length 3650
    s.startDay [] (classify s now).2 w h

theorem backstopGo_ok_elim (day : Int) :
    ∀ (c : List Nat) (j : Nat) (sched m : Dict),
      backstopGo day j c sched = Except.ok m → m = backstopGoT day j c sched := by
  intro c
  induction c with
  | nil =>
    intro j sched m h
    unfold backstopGo at h
    injection h with h'
    rw [← h']
    rfl
  | cons idx rest ih =>
    intro j sched m h
    unfold backstopGo at h
    unfold backstopGoT
    cases hs : eveningSlot day j with
    | error e => rw [hs] at h; cases h
    | ok slot =>
      rw [hs] at h
      dsimp only at h
      have hsl : slot = eveningSlotT day j := eveningSlot_ok_elim _ _ _ hs
      rw [hsl] at h
      exact ih _ _ _ h

theorem backstopGo_error_of_long (day : Int) :
    ∀ (c : List Nat) (j : Nat) (sched : Dict),
      6 ≤ j + c.length → j ≤ 5 →
      backstopGo day j c sched = Except.error hourValueError := by
  intro c
  induction c with
  | nil => intro j sched h6 hj; simp only [List.length_nil] at h6; omega
  | cons idx rest ih =>
    intro j sched h6 hj
    unfold backstopGo
    by_cases hj5 : j = 5
    · subst hj5
      rw [eveningSlot_error_of_ge day 5 (by omega)]
    · rw [eveningSlot_ok_of_le day j (by omega)]
      dsimp only
      refine ih (j + 1) _ ?_ (by omega)
      simp only [List.length_cons] at h6
      omega

theorem compute_ok_elim (s : Sched) (now : Int) (m : Dict)
    (h : compute_scheduled_times s now = Except.ok m) :
    m = computeT s now ∧ walkResult s now = Except.ok (walkResultT s now) := by
  unfold compute_scheduled_times at h
  cases hw : walkResult s now with
  | error e => rw [hw] at h; cases h
  | ok w =>
    rw [hw] at h
    dsimp only at h
    have hwt : w = walkResultT s now := walkResult_ok_elim s now w hw
    constructor
    · have hm : m = backstopGoT w.2.2 0 w.2.1 w.1 :=
        backstopGo_ok_elim w.2.2 w.2.1 0 w.1 m h
      rw [hm, hwt]
      rfl
    · rw [hwt]

theorem compute_error_of_long_carry (s : Sched) (now : Int)
    (w : Dict × List Nat × Int) (hw : walkResult s now = Except.ok w)
    (h6 : 6 ≤ w.2.1.length) :
    compute_scheduled_times s now = Except.error hourValueError := by
  unfold compute_scheduled_times
  rw [hw]
  dsimp only
  exact backstopGo_error_of_long w.2.2 w.2.1 0 w.1 (by omega) (by omega)

/-! ## Claim C10 -/

/-- C10: `base_slot_for_index` is strictly increasing; within a day
consecutive indices are exactly one hour (60 minutes) apart; and index
`i + PICKS_PER_DAY` falls exactly one calendar day after index `i` at the
same wall-clock hour. -/
theorem base_slot_monotonicity :
    ∀ i : Nat,
      base_slot_for_index i < base_slot_for_index (i + 1) ∧
      (i % PICKS_PER_DAY < 9 → base_slot_for_index (i + 1) = base_slot_for_index i + 60) ∧
      base_slot_for_index (i + PICKS_PER_DAY) = base_slot_for_index i + 1440 ∧
      dayOf (base_slot_for_index (i + PICKS_PER_DAY)) = dayOf (base_slot_for_index i) + 1 ∧
      hourOf (base_slot_for_index (i + PICKS_PER_DAY)) = hourOf (base_slot_for_index i) := by
  intro i
  simp only [base_slot_for_index, mkTime, dayOf, hourOf, PICKS_PER_DAY, DAY_FIRST_HOUR]
  refine ⟨?_, ?_, ?_, ?_, ?_⟩ <;> omega

/-- Witness for C10 at `i = 3` (same-day step) and the one-day shift. -/
theorem base_slot_monotonicity_witness :
    3 % PICKS_PER_DAY < 9 ∧
    base_slot_for_index 4 = base_slot_for_index 3 + 60 ∧
    base_slot_for_index 13 = base_slot_for_index 3 + 1440 :=
  ⟨by decide, (base_slot_monotonicity 3).2.1 (by decide), (base_slot_monotonicity 3).2.2.1⟩

/-! ## Claim C3 -/

/-- C3 counterexample: there is no rest-day skipping in
`base_slot_for_index`.  Index 10's base slot falls on day 1 = Nov 2 2025, a
Sunday (weekday 6), the spec's example rest day; moreover picks land on
every weekday (`10 * k` for `k < 7` covers all seven residues), so no
weekday whatsoever is skipped. -/
theorem rest_day_counterexample :
    weekdayOf (dayOf (base_slot_for_index 10)) = 6 ∧
    ((List.range 7).all fun w =>
      (List.range 7).any fun k =>
        weekdayOf (dayOf (base_slot_for_index (10 * k))) == (w : Int)) = true := by
  constructor
  · decide
  · decide

/-- C3 amended: `base_slot_for_index i` advances `i / slotsPerDay` plain
calendar days from the draft start (no eligible-day skipping), places the
slot at hour `9 + i % slotsPerDay`, and base slots fall on every weekday
(so no configured rest weekday exists). -/
theorem base_slot_no_rest_day_amended :
    ∀ i : Nat,
      dayOf (base_slot_for_index i) = ((i / PICKS_PER_DAY : Nat) : Int) ∧
      hourOf (base_slot_for_index i) = DAY_FIRST_HOUR + ((i % PICKS_PER_DAY : Nat) : Int) ∧
      ∀ w : Int, 0 ≤ w → w < 7 →
        ∃ j : Nat, weekdayOf (dayOf (base_slot_for_index j)) = w := by
  intro i
  refine ⟨?_, ?_, ?_⟩
  · simp only [base_slot_for_index, mkTime, dayOf, PICKS_PER_DAY, DAY_FIRST_HOUR]
    omega
  · simp only [base_slot_for_index, mkTime, dayOf, hourOf, PICKS_PER_DAY, DAY_FIRST_HOUR]
    omega
  · intro w h0 h7
    refine ⟨10 * ((w + 2) % 7).toNat, ?_⟩
    simp only [base_slot_for_index, mkTime, dayOf, weekdayOf, PICKS_PER_DAY, DAY_FIRST_HOUR]
    omega

/-- Witness for C3's amended claim: weekday 6 (Sunday) is hit by a base slot. -/
theorem base_slot_no_rest_day_amended_witness :
    (0 : Int) ≤ 6 ∧ (6 : Int) < 7 ∧
    ∃ j : Nat, weekdayOf (dayOf (base_slot_for_index j)) = 6 :=
  ⟨by decide, by decide, (base_slot_no_rest_day_amended 0).2.2 6 (by decide) (by decide)⟩

/-! ## Claim C1 -/

/-- C1 counterexample: the claim "every undrafted pick that is not missed
gets scheduledTime(i) = designated(i)" fails when schedule resolution
raises.  With seven undrafted picks at base slots 09:00-15:00 of day 0 and
`now` = 15:00, picks 0-5 are missed, day 0's evening queue has six
entries, and `_compute_scheduled_times` raises
`ValueError: hour must be in 0..23` at queue position 4's same-day
deadline (hour 19 + 4 + 1 = 24): the non-missed pick 6 gets no scheduled
time at all. -/
theorem miss_detection_counterexample :
    c1cs.undraftedAt 6 = true ∧ c1cnow < c1cs.nd 6 ∧
    compute_scheduled_times c1cs c1cnow = Except.error hourValueError := by
  refine ⟨by decide, by decide, by decide⟩

/-- C1 amended: an undrafted pick `i` is missed as of `now` (lands in a
miss bucket) iff `now ≥ nextDeadline(i)`; the bucket it lands in is the
one of the calendar day of its own designated time; whenever
`_compute_scheduled_times` returns (instead of raising `ValueError` for
an evening queue of six or more entries), a non-missed undrafted pick
keeps `scheduledTime(i) = designated(i)` in the returned schedule; and
`nextDeadline(i)` is the next pick's designated time, or `designated(i)`
plus 36500 days for the last pick (so, within that effectively-infinite
horizon, the last pick is never missed). -/
theorem miss_detection_amended (s : Sched) (now : Int) (i : Nat)
    (hi : i < s.total) (hu : s.undraftedAt i = true) :
    (i ∈ (classify s now).1 (dayOf (s.designatedAt i)) ↔ now ≥ s.nd i) ∧
    (∀ d : Int, i ∈ (classify s now).1 d → d = dayOf (s.designatedAt i)) ∧
    (∀ m, compute_scheduled_times s now = Except.ok m → now < s.nd i →
      List.lookup i m = some (s.designatedAt i)) ∧
    s.nd i = (if i + 1 < s.total then s.designatedAt (i + 1) else s.designatedAt i + 36500 * 1440) := by
  have hmem : i ∈ s.undraftedIdxs := (mem_undraftedIdxs_iff s i).mpr ⟨hi, hu⟩
  refine ⟨?_, ?_, ?_, rfl⟩
  · rw [classify_bucket]
    simp only [List.mem_filter, Bool.and_eq_true, decide_eq_true_eq]
    constructor
    · rintro ⟨_, hnd, _⟩
      exact hnd
    · intro hnd
      refine ⟨hmem, hnd, ?_⟩
      trivial
  · intro d hd
    rw [classify_bucket] at hd
    simp only [List.mem_filter, Bool.and_eq_true, decide_eq_true_eq] at hd
    exact hd.2.2.symm
  · intro m hm hlt
    have hmT : m = computeT s now := (compute_ok_elim s now m hm).1
    have hnm : ¬ now ≥ s.nd i := not_le.mpr hlt
    have hnb : ∀ d, ¬ i ∈ (classify s now).1 d := by
      intro d hd
      rw [classify_bucket] at hd
      simp only [List.mem_filter, Bool.and_eq_true, decide_eq_true_eq] at hd
      exact hnm hd.2.1
    have h0 : List.lookup i (classify s now).2 = some (s.designatedAt i) :=
      classify_sched_lookup s now i hmem hnm
    have hw := walk_frame now (classify s now).1 s.undraftedIdxs.length 3650
      s.startDay [] (classify s now).2 i hnb (by simp)
    have hcalc : List.lookup i (computeT s now) =
        List.lookup i (classify s now).2 := by
      unfold computeT walkResultT
      rw [backstop_lookup_frame _ _ _ _ _ hw.2, hw.1]
    rw [hmT, hcalc, h0]

/-- Witness for C1's amended claim: in a two-pick state at 08:00 of day 0,
resolution returns, pick 0 is not yet missed and keeps its 09:00
designated slot. -/
theorem miss_detection_amended_witness :
    0 < c1s.total ∧ c1s.undraftedAt 0 = true ∧ mkTime 0 8 < c1s.nd 0 ∧
    compute_scheduled_times c1s (mkTime 0 8) =
      Except.ok [(0, mkTime 0 9), (1, mkTime 0 10)] ∧
    List.lookup 0 [((0:Nat), mkTime 0 9), (1, mkTime 0 10)] = some (c1s.designatedAt 0) :=
  ⟨by decide, by decide, by decide, by decide,
    (miss_detection_amended c1s (mkTime 0 8) 0 (by decide) (by decide)).2.2.1
      [(0, mkTime 0 9), (1, mkTime 0 10)] (by decide) (by decide)⟩

/-! ## Claim C2 -/

/-- C2 counterexample: `get_current_on_clock_pick` does not always return
the minimizing undrafted pick — it first resolves the schedule, and in the
seven-pick state at 15:00 of day 0 (six-entry evening queue) that
resolution raises `ValueError: hour must be in 0..23`, so the call raises
although undrafted picks remain. -/
theorem on_clock_selection_counterexample :
    c2cs.picks.any (fun r => !(pickTaken r)) = true ∧
    get_current_on_clock_pick c2cs c1cnow = Except.error hourValueError := by
  refine ⟨by decide, by decide⟩

/-- C2 amended: whenever schedule resolution returns a dict `m` (instead
of raising `ValueError` for an evening queue of six or more entries),
`get_current_on_clock_pick` returns `None` iff every pick in the draft
order is assigned; otherwise it returns the undrafted pick whose
`(scheduled-or-designated time, index)` pair is lexicographically minimal
among all undrafted picks. -/
theorem on_clock_selection_amended (s : Sched) (now : Int) :
    ∀ m, compute_scheduled_times s now = Except.ok m →
    (get_current_on_clock_pick s now = Except.ok none ↔
      ∀ r ∈ s.picks, pickTaken r = true) ∧
    (∀ b : Nat, onClockIdx s now = Except.ok (some b) →
      get_current_on_clock_pick s now = Except.ok (s.picks.get? b) ∧
      (∃ r, s.picks.get? b = some r ∧ pickTaken r = false) ∧
      (∀ j r, s.picks.get? j = some r → pickTaken r = false →
        keyLe (schedOrDesignated s m b, b) (schedOrDesignated s m j, j))) := by
  intro m hm
  have hidx : onClockIdx s now =
      Except.ok ((pickLoopGo (schedOrDesignated s m) 0 s.picks none).map (·.2)) := by
    unfold onClockIdx
    rw [hm]
  have hpick : get_current_on_clock_pick s now =
      Except.ok (((pickLoopGo (schedOrDesignated s m) 0 s.picks none).map (·.2)).bind
        (fun b => s.picks.get? b)) := by
    unfold get_current_on_clock_pick
    rw [hidx]
  constructor
  · constructor
    · intro h
      by_cases hl : pickLoopGo (schedOrDesignated s m) 0 s.picks none = none
      · exact fun r hr => ((pickLoopGo_none_iff _ _ 0 none).mp hl).2 r hr
      · exfalso
        obtain ⟨bk, hbk⟩ := Option.ne_none_iff_exists'.mp hl
        obtain ⟨hex, _, _⟩ := pickLoopGo_spec _ _ 0 none bk hbk
        rcases hex with h1 | ⟨j, r, hj, _, hbkval⟩
        · cases h1
        · rw [hpick, hbk] at h
          simp only [Option.map_some', Option.some_bind] at h
          injection h with h'
          rw [hbkval] at h'
          simp only [Nat.zero_add] at h'
          rw [h'] at hj
          cases hj
    · intro hall
      rw [hpick, (pickLoopGo_none_iff _ _ 0 none).mpr ⟨rfl, hall⟩]
      rfl
  · intro b hb
    obtain ⟨bk, hbk, hb2⟩ : ∃ bk,
        pickLoopGo (schedOrDesignated s m) 0 s.picks none = some bk ∧ bk.2 = b := by
      rw [hidx] at hb
      injection hb with hb'
      cases hres : pickLoopGo (schedOrDesignated s m) 0 s.picks none with
      | none => rw [hres] at hb'; cases hb'
      | some bk =>
        rw [hres] at hb'
        simp only [Option.map_some', Option.some.injEq] at hb'
        exact ⟨bk, rfl, hb'⟩
    obtain ⟨hex, _, hall⟩ := pickLoopGo_spec _ _ 0 none bk hbk
    rcases hex with h1 | ⟨j, r, hj, hrj, hbkval⟩
    · cases h1
    · have hbj : b = j := by
        rw [← hb2, hbkval]
        simp
      have hbkpair : bk = (schedOrDesignated s m b, b) := by
        rw [hbkval, hbj]
        simp
      refine ⟨?_, ?_, ?_⟩
      · rw [hpick, hbk]
        simp [hb2]
      · exact ⟨r, by rw [hbj]; exact hj, hrj⟩
      · intro j' r' hj' hr'
        have hmin := hall j' r' hj' hr'
        rw [hbkpair] at hmin
        simpa using hmin

/-- Witness for C2's amended claim: in a three-pick state at 08:00 of day 0
resolution returns and the selection returns pick index 0. -/
theorem on_clock_selection_amended_witness :
    compute_scheduled_times c2s (mkTime 0 8) =
      Except.ok [(0, mkTime 0 9), (1, mkTime 0 10), (2, mkTime 0 11)] ∧
    get_current_on_clock_pick c2s (mkTime 0 8) = Except.ok (c2s.picks.get? 0) :=
  ⟨by decide,
    ((on_clock_selection_amended c2s (mkTime 0 8)
        [(0, mkTime 0 9), (1, mkTime 0 10), (2, mkTime 0 11)] (by decide)).2 0
      (by decide)).1⟩

/-! ## Claim C9 -/

/-- C9: whenever `get_current_pick_info` returns a record, its deadline is
the designated time of the pick at the next index in fixed original order
(not that pick's resolved scheduled time), and it is `None` exactly when
the current on-clock pick is the last pick of the draft order. -/
theorem current_pick_deadline_spec (s : Sched) (now : Int) :
    ∀ inf, get_current_pick_info s now = Except.ok (some inf) →
      ∃ b, onClockIdx s now = Except.ok (some b) ∧ b < s.total ∧
        inf.deadline = (if b + 1 < s.total then some (s.designatedAt (b + 1)) else none) ∧
        (inf.deadline = none ↔ b = s.total - 1) := by
  intro inf h
  unfold get_current_pick_info at h
  by_cases he : s.picks.isEmpty
  · rw [if_pos he] at h
    injection h with h'
    cases h'
  · rw [if_neg he] at h
    cases hcm : compute_scheduled_times s now with
    | error e => rw [hcm] at h; cases h
    | ok m =>
      rw [hcm] at h
      dsimp only at h
      cases hres : pickLoopGo (schedOrDesignated s m) 0 s.picks none with
      | none =>
        rw [hres] at h
        injection h with h'
        cases h'
      | some bk =>
        rw [hres] at h
        have h2 : (match s.picks.get? bk.2 with
            | none => (Except.ok none : Except String (Option PickInfo))
            | some rec =>
              Except.ok (some
                { id := rec.id, round := rec.round, pickNo := rec.pick,
                  team := rec.team, schedTime := schedOrDesignated s m bk.2,
                  deadline :=
                    if bk.2 + 1 < s.total then some (s.designatedAt (bk.2 + 1))
                    else none })) = Except.ok (some inf) := h
        cases hrec : s.picks.get? bk.2 with
        | none =>
          rw [hrec] at h2
          injection h2 with h2'
          cases h2'
        | some rec =>
          rw [hrec] at h2
          injection h2 with h2'
          injection h2' with hinf
          have hlt : bk.2 < s.picks.length := by
            by_contra hge
            rw [List.get?_eq_none.mpr (Nat.le_of_not_lt hge)] at hrec
            cases hrec
          have htot : s.total = s.picks.length := rfl
          refine ⟨bk.2, ?_, hlt, ?_, ?_⟩
          · unfold onClockIdx
            rw [hcm]
            dsimp only
            rw [hres]
            rfl
          · rw [← hinf]
          · rw [← hinf]
            show (if bk.2 + 1 < s.total then some (s.designatedAt (bk.2 + 1)) else none) =
                none ↔ bk.2 = s.total - 1
            by_cases hc : bk.2 + 1 < s.total
            · rw [if_pos hc]
              constructor
              · intro hx; cases hx
              · intro hx
                exfalso
                omega
            · rw [if_neg hc]
              constructor
              · intro _
                omega
              · intro _
                rfl

/-- Witness for C9: in a two-pick state the current pick is index 0 and the
reported deadline is pick 1's designated time (10:00 of day 0). -/
theorem current_pick_deadline_spec_witness :
    ∃ b, onClockIdx c9s (mkTime 0 8) = Except.ok (some b) ∧ b < c9s.total ∧
      ({ id := 1, round := 1, pickNo := 1, team := "A", schedTime := mkTime 0 9,
         deadline := some (mkTime 0 10) } : PickInfo).deadline =
        (if b + 1 < c9s.total then some (c9s.designatedAt (b + 1)) else none) ∧
      (({ id := 1, round := 1, pickNo := 1, team := "A", schedTime := mkTime 0 9,
          deadline := some (mkTime 0 10) } : PickInfo).deadline = none ↔ b = c9s.total - 1) :=
  current_pick_deadline_spec c9s (mkTime 0 8) _ (by decide)

/-! ## Claim C4 -/

/-- C4 counterexample: the source builds each day's evening queue as
`todays_misses + carryover_eod` with the miss bucket in ascending original
index order — not `carryover ++ missesSortedByDesignatedTime` as the claim
states.  In state `c4s` at `c4now`, day 1 processes the bucket `[1, 2]`
(although `designated(2) < designated(1)`) followed by the carryover `[0]`,
so the code places index 1 at 19:00, index 2 at 20:00 and index 0 at
21:00, while the claim's composition (modelled by `computeSpecC4`) would
place index 0 at 19:00 and index 1 at 21:00. -/
theorem overflow_queue_counterexample :
    List.lookup 0 (computeT c4s c4now) = some (mkTime 1 21) ∧
    List.lookup 1 (computeT c4s c4now) = some (mkTime 1 19) ∧
    List.lookup 2 (computeT c4s c4now) = some (mkTime 1 20) ∧
    List.lookup 0 (computeSpecC4 c4s c4now) = some (mkTime 1 19) ∧
    List.lookup 1 (computeSpecC4 c4s c4now) = some (mkTime 1 21) ∧
    c4s.designatedAt 2 < c4s.designatedAt 1 := by
  refine ⟨?_, ?_, ?_, ?_, ?_, ?_⟩ <;> decide

/-- C4 amended: the day's overflow queue is that day's miss bucket (in
ascending original-index insertion order — never sorted by designated
time) followed by the carryover from the previous day; when the queue has
six or more entries its processing raises
`ValueError: hour must be in 0..23`; when it returns, queue position `j`
was assigned the evening slot at hour `overflowStartHour + j` if it was
finalized.  Stated over the queue processing with `queue = misses ++
carry`, plus the fact that every miss bucket is ascending in original
pick index. -/
theorem overflow_queue_amended (now day : Int) (misses carry : List Nat) (sched : Dict)
    (hnd : (misses ++ carry).Nodup) :
    (6 ≤ (misses ++ carry).length →
      processQueue now day (misses ++ carry) sched = Except.error hourValueError) ∧
    (∀ r, processQueue now day (misses ++ carry) sched = Except.ok r →
      (∀ jj idx, misses.get? jj = some idx →
        now < slotDeadlineT day jj (misses ++ carry).length →
        List.lookup idx r.1 = some (eveningSlotT day jj)) ∧
      (∀ jj idx, carry.get? jj = some idx →
        now < slotDeadlineT day (misses.length + jj) (misses ++ carry).length →
        List.lookup idx r.1 = some (eveningSlotT day (misses.length + jj)))) ∧
    (∀ (sc : Sched) (t : Int) (d : Int),
      List.Pairwise (· < ·) ((classify sc t).1 d)) := by
  refine ⟨?_, ?_, ?_⟩
  · intro h6
    exact processQueue_error_of_long now day (misses ++ carry) sched h6
  · intro r hr
    have hrT : r = processQueueT now day (misses ++ carry) sched :=
      processQueue_ok_elim now day (misses ++ carry) sched r hr
    subst hrT
    constructor
    · intro jj idx hidx hdl
      have hjm : jj < misses.length := by
        by_contra hge
        rw [List.get?_eq_none.mpr (Nat.le_of_not_lt hge)] at hidx
        cases hidx
      have hq : (misses ++ carry).get? jj = some idx := by
        rw [List.get?_append hjm]
        exact hidx
      obtain ⟨hlt, hget⟩ := List.get?_eq_some.mp hq
      have hspec := (pqGo_spec now day (misses ++ carry).length (misses ++ carry)
        0 sched [] hnd jj hlt).2 (by simpa using not_le.mpr hdl)
      rw [hget] at hspec
      simp only [processQueueT]
      simpa using hspec.1
    · intro jj idx hidx hdl
      have hjc : jj < carry.length := by
        by_contra hge
        rw [List.get?_eq_none.mpr (Nat.le_of_not_lt hge)] at hidx
        cases hidx
      have hq : (misses ++ carry).get? (misses.length + jj) = some idx := by
        rw [List.get?_append_right (Nat.le_add_right _ _)]
        simpa using hidx
      obtain ⟨hlt, hget⟩ := List.get?_eq_some.mp hq
      have hspec := (pqGo_spec now day (misses ++ carry).length (misses ++ carry)
        0 sched [] hnd (misses.length + jj) hlt).2 (by simpa using not_le.mpr hdl)
      rw [hget] at hspec
      simp only [processQueueT]
      simpa using hspec.1
  · intro sc t d
    rw [classify_bucket]
    exact List.Pairwise.filter _
      (List.Pairwise.filter _ (List.pairwise_lt_range sc.total))

/-- Witness for C4's amended claim on a concrete queue: with miss bucket
`[5]` and carryover `[7]` on day 0, processing returns, entry 5 gets slot
19:00 and entry 7 gets slot 20:00. -/
theorem overflow_queue_amended_witness :
    processQueue (mkTime 0 0) 0 ([5] ++ [7]) [] =
      Except.ok (processQueueT (mkTime 0 0) 0 ([5] ++ [7]) []) ∧
    List.lookup 5 (processQueueT (mkTime 0 0) 0 ([5] ++ [7]) []).1 =
      some (eveningSlotT 0 0) ∧
    List.lookup 7 (processQueueT (mkTime 0 0) 0 ([5] ++ [7]) []).1 =
      some (eveningSlotT 0 1) := by
  have h := overflow_queue_amended (mkTime 0 0) 0 [5] [7] [] (by decide)
  have hok := h.2.1 (processQueueT (mkTime 0 0) 0 ([5] ++ [7]) []) (by decide)
  exact ⟨by decide, hok.1 0 5 rfl (by decide), hok.2 0 7 rfl (by decide)⟩

/-! ## Claim C5 -/

/-- C5 counterexample: the code re-misses an evening-queue entry only when
`now` has reached the slot's deadline; a slot whose calendar day is
strictly earlier than `now`'s day is still finalized if the deadline (the
next day's 09:00 for the last queue position) has not passed.  In state
`c5s` at day 1, 03:00, pick 0's evening slot is day 0 at 19:00 — a past
calendar day — yet the code finalizes it there instead of pushing it onto
the next day's carryover as the claim requires. -/
theorem remiss_rule_counterexample :
    List.lookup 0 (computeT c5s c5now) = some (mkTime 0 19) ∧
    dayOf (mkTime 0 19) < dayOf c5now ∧
    c5now < mkTime 1 9 := by
  refine ⟨?_, ?_, ?_⟩ <;> decide

/-- C5 amended: an evening-queue entry at position `j` of day `d` has slot
deadline equal to the next same-day queue slot's time when one follows,
else the first-slot hour (09:00) on the next calendar day (its
construction raises `ValueError` from position 4 of a longer queue on, so
queues of six or more entries raise); when the queue's processing
returns, the entry was pushed onto the next day's carryover iff `now` had
reached or passed that slot's deadline, and otherwise finalized with its
overflow slot `overflowStartHour + j`.  No calendar-day comparison takes
part in the decision. -/
theorem remiss_rule_amended (now day : Int) (queue : List Nat) (sched : Dict)
    (hnd : queue.Nodup) (jj : Nat) (hj : jj < queue.length) :
    (6 ≤ queue.length →
      processQueue now day queue sched = Except.error hourValueError) ∧
    (∀ t, slotDeadline day jj queue.length = Except.ok t →
      t = slotDeadlineT day jj queue.length) ∧
    (∀ r, processQueue now day queue sched = Except.ok r →
      (queue.get ⟨jj, hj⟩ ∈ r.2 ↔ now ≥ slotDeadlineT day jj queue.length) ∧
      (now < slotDeadlineT day jj queue.length →
        List.lookup (queue.get ⟨jj, hj⟩) r.1 = some (eveningSlotT day jj))) ∧
    slotDeadlineT day jj queue.length =
      (if jj + 1 < queue.length then mkTime day (END_OF_DAY_MISS_HOUR + (jj : Int) + 1)
       else mkTime (day + 1) DAY_FIRST_HOUR) := by
  have hspec := pqGo_spec now day queue.length queue 0 sched [] hnd jj hj
  refine ⟨?_, ?_, ?_, rfl⟩
  · intro h6
    exact processQueue_error_of_long now day queue sched h6
  · intro t ht
    exact slotDeadline_ok_elim day jj queue.length t ht
  · intro r hr
    have hrT : r = processQueueT now day queue sched :=
      processQueue_ok_elim now day queue sched r hr
    subst hrT
    constructor
    · constructor
      · intro hmem
        by_contra hnot
        have h2 := (hspec.2 (by simpa using hnot)).2
        simp only [processQueueT] at hmem
        rw [pqGo_carry_eq] at hmem
        simp only [List.nil_append] at hmem
        exact h2 hmem
      · intro hd
        have h1 := (hspec.1 (by simpa using hd)).1
        simpa [processQueueT] using h1
    · intro hlt
      have h1 := (hspec.2 (by simpa using not_le.mpr hlt)).1
      simpa [processQueueT] using h1

/-- Witness for C5's amended claim: in queue `[5, 7]` on day 0 processed at
midnight, processing returns, position 0's deadline is 20:00 and the
entry is finalized at 19:00, not carried. -/
theorem remiss_rule_amended_witness :
    processQueue (mkTime 0 0) 0 [5, 7] [] =
      Except.ok (processQueueT (mkTime 0 0) 0 [5, 7] []) ∧
    ¬ ((5 : Nat) ∈ (processQueueT (mkTime 0 0) 0 [5, 7] []).2) ∧
    List.lookup 5 (processQueueT (mkTime 0 0) 0 [5, 7] []).1 =
      some (eveningSlotT 0 0) := by
  have h := remiss_rule_amended (mkTime 0 0) 0 [5, 7] [] (by decide) 0 (by decide)
  have hok := h.2.2.1 (processQueueT (mkTime 0 0) 0 [5, 7] []) (by decide)
  refine ⟨by decide, ?_, hok.2 (by decide)⟩
  intro hmem
  have := hok.1.mp hmem
  revert this
  decide

/-! ## Claim C8 -/

theorem walk_day_le (now : Int) (buckets : Int → List Nat) (cnt : Nat) :
    ∀ (fuel : Nat) (day : Int) (carry : List Nat) (sched : Dict),
      (walkT now buckets cnt fuel day carry sched).2.2 ≤ day + fuel := by
  intro fuel
  induction fuel with
  | zero => intro day carry sched; simp [walkT]
  | succ n ih =>
    intro day carry sched
    by_cases hlen : sched.length < cnt
    · simp only [walkT, if_pos hlen]
      have := ih (day + 1) (processQueueT now day (buckets day ++ carry) sched).2
        (processQueueT now day (buckets day ++ carry) sched).1
      omega
    · simp only [walkT, if_neg hlen]
      omega

theorem subset_of_nodup_ge_length {l₁ l₂ : List Nat} (h1 : l₁.Nodup) (h2 : l₂.Nodup)
    (hsub : ∀ x ∈ l₁, x ∈ l₂) (hlen : l₂.length ≤ l₁.length) :
    ∀ x ∈ l₂, x ∈ l₁ := by
  have hs : l₁.toFinset ⊆ l₂.toFinset := by
    intro x hx
    exact List.mem_toFinset.mpr (hsub x (List.mem_toFinset.mp hx))
  have hc1 : l₁.toFinset.card = l₁.length := List.toFinset_card_of_nodup h1
  have hc2 : l₂.toFinset.card = l₂.length := List.toFinset_card_of_nodup h2
  have heq := Finset.eq_of_subset_of_card_le hs (by omega)
  intro x hx
  exact List.mem_toFinset.mp (heq ▸ List.mem_toFinset.mpr hx)

/-- C8 counterexample: the backstop only force-places entries that are in
the carryover queue when the 3650-day cap is hit.  A missed pick whose
designated-day bucket lies beyond the walked window (pick 0, overridden to
day 4000, missed because its deadline — pick 1's designated time on day 0 —
has passed) never enters any evening queue, is not backstopped, and is left
with no scheduled time at all, refuting "schedule resolution always
returns a defined scheduled time for every undrafted pick". -/
theorem backstop_counterexample :
    c8s.undraftedAt 0 = true ∧
    (compute_scheduled_times c8s c8now).map (fun m => List.lookup 0 m) =
      Except.ok none := by
  constructor
  · decide
  · set_option maxRecDepth 40000 in decide

/-- C8 amended: the day-by-day overflow walk performs at most 3650
day-iterations, so the loop always terminates — but its result is not
always a defined schedule: six or more leftover carryover entries make
the backstop raise `ValueError: hour must be in 0..23`, surfacing an
error to the caller.  When the walk exits with state `w`, the exit day is
within the cap; if resolution returns a dict, the leftover carryover
entries were force-placed on the exit day's overflow tail in queue order,
and an undrafted pick can be absent from the dict only when it was missed
and its designated-time day was never reached by the capped walk
(`≥ startDay + 3650`) — callers then fall back to its designated time. -/
theorem backstop_amended (s : Sched) (now : Int) :
    (∀ w, walkResult s now = Except.ok w →
      w.2.2 ≤ s.startDay + 3650 ∧
      w.2.1.Nodup ∧
      (6 ≤ w.2.1.length →
        compute_scheduled_times s now = Except.error hourValueError) ∧
      (∀ m, compute_scheduled_times s now = Except.ok m →
        ∀ jj (hj : jj < w.2.1.length),
          List.lookup (w.2.1.get ⟨jj, hj⟩) m = some (eveningSlotT w.2.2 jj))) ∧
    (∀ m i, compute_scheduled_times s now = Except.ok m →
      i < s.total → s.undraftedAt i = true → List.lookup i m = none →
      now ≥ s.nd i ∧ dayOf (s.designatedAt i) ≥ s.startDay + 3650) := by
  have hbn : ∀ d, ((classify s now).1 d).Nodup := by
    intro d
    rw [classify_bucket]
    exact List.Nodup.filter _ (List.Nodup.filter _ (List.nodup_range s.total))
  have hbd : ∀ d k, k ∈ (classify s now).1 d → dayOf (s.designatedAt k) = d := by
    intro d k hk
    rw [classify_bucket] at hk
    simp only [List.mem_filter, Bool.and_eq_true, decide_eq_true_eq] at hk
    exact hk.2.2
  have hbm : ∀ d k, k ∈ (classify s now).1 d → now ≥ s.nd k := by
    intro d k hk
    rw [classify_bucket] at hk
    simp only [List.mem_filter, Bool.and_eq_true, decide_eq_true_eq] at hk
    exact hk.2.1
  have hbu : ∀ d k, k ∈ (classify s now).1 d → k ∈ s.undraftedIdxs := by
    intro d k hk
    rw [classify_bucket] at hk
    exact (List.mem_filter.mp hk).1
  have hcar := walk_carry_inv now (classify s now).1 s.undraftedIdxs.length
    (fun k => dayOf (s.designatedAt k)) hbn hbd 3650 s.startDay [] (classify s now).2
    (List.nodup_nil) (by intro k hk; cases hk)
  constructor
  · intro w hw
    have hwT : w = walkResultT s now := walkResult_ok_elim s now w hw
    subst hwT
    refine ⟨?_, hcar.1, ?_, ?_⟩
    · exact walk_day_le now (classify s now).1 s.undraftedIdxs.length 3650
        s.startDay [] (classify s now).2
    · intro h6
      exact compute_error_of_long_carry s now _ hw h6
    · intro m hm jj hj
      have hmT : m = computeT s now := (compute_ok_elim s now m hm).1
      subst hmT
      have hg := backstop_get (walkResultT s now).2.2 (walkResultT s now).2.1 0
        (walkResultT s now).1 hcar.1 jj hj
      simpa [computeT] using hg
  · intro m i hm hi hu hnone
    have hmT : m = computeT s now := (compute_ok_elim s now m hm).1
    subst hmT
    have hmem : i ∈ s.undraftedIdxs := (mem_undraftedIdxs_iff s i).mpr ⟨hi, hu⟩
    have hnk : ¬ i ∈ dkeys (computeT s now) :=
      (lookup_eq_none_iff_not_mem _ _).mp hnone
    have hnw : ¬ i ∈ dkeys (walkResultT s now).1 := fun h =>
      hnk (backstop_dkeys_mem _ _ _ _ _ h)
    have hnc : ¬ i ∈ (walkResultT s now).2.1 := fun h =>
      hnk (backstop_dkeys_of_mem _ _ _ _ _ h)
    have hcov0 : i ∈ dkeys (classify s now).2 ∨ i ∈ ([] : List Nat) ∨
        ∃ d, s.startDay ≤ d ∧ i ∈ (classify s now).1 d := by
      by_cases hm : now ≥ s.nd i
      · right; right
        refine ⟨dayOf (s.designatedAt i), startDay_le_designated s i hi, ?_⟩
        rw [classify_bucket]
        refine List.mem_filter.mpr ⟨hmem, ?_⟩
        simp [hm]
      · left
        rw [classify_dkeys]
        refine List.mem_filter.mpr ⟨hmem, ?_⟩
        simp [hm]
    have hcov := walk_cover now (classify s now).1 s.undraftedIdxs.length 3650
      s.startDay [] (classify s now).2 i hcov0
    rcases hcov with h | h | ⟨d, hd, hkd⟩
    · exact absurd h hnw
    · exact absurd h hnc
    · have hmiss : now ≥ s.nd i := hbm d i hkd
      have hdday : dayOf (s.designatedAt i) = d := hbd d i hkd
      rcases walk_day_or_length now (classify s now).1 s.undraftedIdxs.length 3650
        s.startDay [] (classify s now).2 with hday | hlen
      · refine ⟨hmiss, ?_⟩
        have : (walkResultT s now).2.2 = s.startDay + 3650 := hday
        omega
      · exfalso
        have hkeys := walk_keys now (classify s now).1 s.undraftedIdxs.length
          (fun k => k ∈ s.undraftedIdxs) hbu 3650 s.startDay [] (classify s now).2
          (by rw [classify_dkeys]
              exact List.Nodup.filter _
                (List.Nodup.filter _ (List.nodup_range s.total)))
          (by intro k hk
              rw [classify_dkeys] at hk
              exact (List.mem_filter.mp hk).1)
          (by intro k hk; cases hk)
        have hlen2 : s.undraftedIdxs.length ≤ (dkeys (walkResultT s now).1).length := by
          have heq := dict_length_eq_dkeys_length (walkResultT s now).1
          have hlen' : s.undraftedIdxs.length ≤ (walkResultT s now).1.length := hlen
          omega
        have hundrafted_nodup : s.undraftedIdxs.Nodup :=
          List.Nodup.filter _ (List.nodup_range s.total)
        have hall := subset_of_nodup_ge_length hkeys.1 hundrafted_nodup
          hkeys.2.1 hlen2
        exact hnw (hall i hmem)

/-- Witness for C8's amended claim at the far-future-override state:
resolution returns a dict with no entry for pick 0, and the absence is
explained by a miss whose designated day lies beyond the walked window. -/
theorem backstop_amended_witness :
    c8now ≥ c8s.nd 0 ∧ dayOf (c8s.designatedAt 0) ≥ c8s.startDay + 3650 :=
  (backstop_amended c8s c8now).2 [((1 : Nat), mkTime 0 10)] 0
    (by set_option maxRecDepth 40000 in decide) (by decide) (by decide)
    (by decide)

/-! ## Claim C6 -/

/-- C6: a draft attempt with a target player that is missing, already
owned, or ineligible aborts with no state change; a successful attempt
sets the pick's `player_id`/`drafted_at`, sets the player's franchise to
the drafting team, and removes the drafted player from every team's
queue, leaving all other picks untouched; and a notification failure
never rolls back the assignment (the result is independent of the
`fails` flag).  The same abort/no-side-effect shape holds for the manual
`api_draft` path. -/
theorem draft_atomicity_spec (db : DB) (nowUtc : Int) (fails : Bool)
    (team : String) (pid doid : Nat) :
    ((perform_draft_internal db nowUtc fails team pid doid).2.isSome = true ↔
      (findPlayer db pid = none ∨
       ∃ p, findPlayer db pid = some p ∧
         (truthyStr p.franchise = true ∨ p.eligible.getD 0 ≠ 1))) ∧
    ((perform_draft_internal db nowUtc fails team pid doid).2.isSome = true →
      (perform_draft_internal db nowUtc fails team pid doid).1 = db) ∧
    (∀ p, findPlayer db pid = some p → truthyStr p.franchise = false →
      p.eligible.getD 0 = 1 →
      (perform_draft_internal db nowUtc fails team pid doid).2 = none ∧
      (perform_draft_internal db nowUtc fails team pid doid).1.players =
        db.players.map (fun q => if q.id == pid then { q with franchise := some team } else q) ∧
      (perform_draft_internal db nowUtc fails team pid doid).1.order =
        db.order.map (fun r => if r.id == doid then
          { r with playerId := some pid, draftedAt := some nowUtc } else r) ∧
      (perform_draft_internal db nowUtc fails team pid doid).1.queue =
        db.queue.filter (fun q => q.playerId != pid) ∧
      (∀ e, e ∈ (perform_draft_internal db nowUtc fails team pid doid).1.queue →
        e.playerId ≠ pid) ∧
      (∀ j r, db.order.get? j = some r → r.id ≠ doid →
        (perform_draft_internal db nowUtc fails team pid doid).1.order.get? j = some r)) ∧
    (perform_draft_internal db nowUtc true team pid doid =
      perform_draft_internal db nowUtc false team pid doid) ∧
    (∀ (now : Int) (sessTeam authTeam : Option String),
      ((api_draft_core db now nowUtc fails sessTeam authTeam pid).2.isSome = true →
        (api_draft_core db now nowUtc fails sessTeam authTeam pid).1 = db) ∧
      ((findPlayer db pid = none ∨
        ∃ p, findPlayer db pid = some p ∧
          (truthyStr p.franchise = true ∨ p.eligible ≠ some 1)) →
        (api_draft_core db now nowUtc fails sessTeam authTeam pid).2.isSome = true) ∧
      ((api_draft_core db now nowUtc fails sessTeam authTeam pid).2 = none →
        ∃ cur p, get_current_on_clock_pick db.sched now = Except.ok (some cur) ∧
          findPlayer db pid = some p ∧ truthyStr p.franchise = false ∧
          p.eligible = some 1 ∧
          (api_draft_core db now nowUtc fails sessTeam authTeam pid).1 =
            { db with
              players := db.players.map
                (fun q => if q.id == pid then { q with franchise := sessTeam } else q),
              order := db.order.map
                (fun r => if r.id == cur.id then
                  { r with playerId := some pid, draftedAt := some nowUtc } else r),
              queue := db.queue.filter (fun q => q.playerId != pid) })) := by
  have hnotify : ∀ (d1 : DB),
      (match notifyResult fails with
       | Except.ok _ => d1
       | Except.error _ => d1) = d1 := by
    intro d1
    cases notifyResult fails <;> rfl
  refine ⟨?_, ?_, ?_, ?_, ?_⟩
  · cases hp : findPlayer db pid with
    | none => simp [perform_draft_internal, hp]
    | some p =>
      by_cases hf : truthyStr p.franchise
      · simp [perform_draft_internal, hp, hf]
      · by_cases he : p.eligible.getD 0 != 1
        · simp only [perform_draft_internal, hp, if_neg hf, if_pos he]
          simp only [Option.isSome_some, true_iff]
          right
          refine ⟨p, rfl, Or.inr ?_⟩
          simpa using he
        · simp only [perform_draft_internal, hp, if_neg hf, if_neg he]
          simp only [Option.isSome_none]
          constructor
          · intro hx; cases hx
          · rintro (hx | ⟨q, hq, hx | hx⟩)
            · cases hx
            · injection hq with hq'
              rw [← hq'] at hx
              exact absurd hx (by simpa using hf)
            · injection hq with hq'
              rw [← hq'] at hx
              exact absurd hx (by simpa using he)
  · cases hp : findPlayer db pid with
    | none => intro _; simp [perform_draft_internal, hp]
    | some p =>
      by_cases hf : truthyStr p.franchise
      · intro _; simp [perform_draft_internal, hp, hf]
      · by_cases he : p.eligible.getD 0 != 1
        · intro _; simp [perform_draft_internal, hp, hf, he]
        · simp only [perform_draft_internal, hp, if_neg hf, if_neg he]
          intro hx
          cases hx
  · intro p hp hf he
    have hne : ¬ (p.eligible.getD 0 != 1) = true := by simp [he]
    simp only [perform_draft_internal, hp, if_neg (by simp [hf] : ¬ truthyStr p.franchise = true),
      if_neg hne, hnotify]
    refine ⟨by trivial, by trivial, by trivial, by trivial, ?_, ?_⟩
    · intro e hmem
      have := List.mem_filter.mp hmem
      simpa using this.2
    · intro j r hj hr
      rw [List.get?_map, hj]
      simp only [Option.map_some']
      have : (r.id == doid) = false := by simp [hr]
      rw [if_neg (by simp [hr])]
  · cases hp : findPlayer db pid with
    | none => simp [perform_draft_internal, hp]
    | some p =>
      by_cases hf : truthyStr p.franchise
      · simp [perform_draft_internal, hp, hf]
      · by_cases he : p.eligible.getD 0 != 1
        · simp [perform_draft_internal, hp, hf, he]
        · simp only [perform_draft_internal, hp, if_neg hf, if_neg he, notifyResult]
          simp
  · intro now sessTeam authTeam
    unfold api_draft_core
    cases hc : get_current_on_clock_pick db.sched now with
    | error e =>
      refine ⟨fun _ => rfl, fun _ => rfl, ?_⟩
      intro hx
      cases hx
    | ok o =>
      cases o with
      | none =>
        refine ⟨fun _ => rfl, fun _ => rfl, ?_⟩
        intro hx
        cases hx
      | some cur =>
        dsimp only
        by_cases hauth : (authTeam != sessTeam) = true
        · rw [if_pos hauth]
          refine ⟨fun _ => rfl, fun _ => rfl, ?_⟩
          intro hx
          cases hx
        · rw [if_neg hauth]
          by_cases hsf : strFalsy sessTeam = true
          · rw [if_pos hsf]
            refine ⟨fun _ => rfl, fun _ => rfl, ?_⟩
            intro hx
            cases hx
          · rw [if_neg hsf]
            by_cases hst : (sessTeam != some cur.team) = true
            · rw [if_pos hst]
              refine ⟨fun _ => rfl, fun _ => rfl, ?_⟩
              intro hx
              cases hx
            · rw [if_neg hst]
              cases hp : findPlayer db pid with
              | none =>
                refine ⟨fun _ => rfl, fun _ => rfl, ?_⟩
                intro hx
                cases hx
              | some p =>
                dsimp only
                by_cases hf : truthyStr p.franchise
                · rw [if_pos hf]
                  refine ⟨fun _ => rfl, fun _ => rfl, ?_⟩
                  intro hx
                  cases hx
                · rw [if_neg hf]
                  cases hel : p.eligible with
                  | none =>
                    refine ⟨fun _ => rfl, ?_, ?_⟩
                    · intro _; rfl
                    · intro hx; cases hx
                  | some e =>
                    dsimp only
                    by_cases hee : (e != 1) = true
                    · rw [if_pos hee]
                      refine ⟨fun _ => rfl, fun _ => rfl, ?_⟩
                      intro hx
                      cases hx
                    · rw [if_neg hee]
                      have he1 : e = 1 := by simpa using hee
                      refine ⟨?_, ?_, ?_⟩
                      · intro hx
                        rw [hnotify] at hx
                        cases hx
                      · rintro (hx | ⟨q, hq, hx | hx⟩)
                        · cases hx
                        · injection hq with hq'
                          rw [← hq'] at hx
                          exact absurd hx (by simpa using hf)
                        · injection hq with hq'
                          rw [← hq', hel, he1] at hx
                          exact absurd rfl hx
                      · intro _
                        refine ⟨cur, p, rfl, rfl, by simpa using hf, by rw [hel, he1], ?_⟩
                        rw [hnotify]

/-- Witness for C6: in state `c6db`, drafting ineligible player 1 aborts
with the state unchanged, while drafting available player 2 succeeds and
empties both teams' queues of that player. -/
theorem draft_atomicity_spec_witness :
    (perform_draft_internal c6db 99 false "T" 1 10).2.isSome = true ∧
    (perform_draft_internal c6db 99 false "T" 1 10).1 = c6db ∧
    (perform_draft_internal c6db 99 false "T" 2 10).2 = none ∧
    (perform_draft_internal c6db 99 false "T" 2 10).1.queue =
      c6db.queue.filter (fun q => q.playerId != 2) := by
  have h1 := draft_atomicity_spec c6db 99 false "T" 1 10
  have h2 := draft_atomicity_spec c6db 99 false "T" 2 10
  have hsome := (h1.1).mpr (Or.inr ⟨{ id := 1, franchise := none, eligible := some 0 },
    by decide, Or.inr (by decide)⟩)
  have hsucc := h2.2.2.1 { id := 2, franchise := none, eligible := some 1 }
    (by decide) (by decide) (by decide)
  exact ⟨hsome, h1.2.1 hsome, hsucc.1, hsucc.2.2.2.1⟩

/-! ## Claim C7 -/

theorem firstDueGo_spec (s : Sched) (now : Int) (l : List PickRow) :
    ∀ (i0 : Nat),
      (firstDueGo s now i0 l = none →
        ∀ j r, l.get? j = some r → pickTaken r = true ∨ now < s.nd (i0 + j)) ∧
      (∀ k rec, firstDueGo s now i0 l = some (k, rec) →
        i0 ≤ k ∧ l.get? (k - i0) = some rec ∧ pickTaken rec = false ∧ now ≥ s.nd k ∧
        ∀ j r, j < k - i0 → l.get? j = some r → pickTaken r = true ∨ now < s.nd (i0 + j)) := by
  induction l with
  | nil =>
    intro i0
    constructor
    · intro _ j r hj
      simp at hj
    · intro k rec h
      cases h
  | cons x rest ih =>
    intro i0
    constructor
    · intro h j r hj
      by_cases ht : pickTaken x
      · simp only [firstDueGo, if_pos ht] at h
        cases j with
        | zero =>
          left
          simp only [List.get?_cons_zero, Option.some.injEq] at hj
          rw [← hj]
          exact ht
        | succ j' =>
          have hj' : rest.get? j' = some r := by simpa using hj
          have hres := (ih (i0 + 1)).1 h j' r hj'
          rcases hres with hres | hres
          · exact Or.inl hres
          · right
            have harith : (i0 + 1) + j' = i0 + (j' + 1) := by omega
            rw [← harith]
            exact hres
      · simp only [firstDueGo, if_neg ht] at h
        by_cases hm : now ≥ s.nd i0
        · rw [if_pos hm] at h
          cases h
        · rw [if_neg hm] at h
          cases j with
          | zero =>
            right
            simpa using not_le.mp hm
          | succ j' =>
            have hj' : rest.get? j' = some r := by simpa using hj
            have hres := (ih (i0 + 1)).1 h j' r hj'
            rcases hres with hres | hres
            · exact Or.inl hres
            · right
              have harith : (i0 + 1) + j' = i0 + (j' + 1) := by omega
              rw [← harith]
              exact hres
    · intro k rec h
      by_cases ht : pickTaken x
      · simp only [firstDueGo, if_pos ht] at h
        obtain ⟨hk, hget, hrec, hnd, hall⟩ := (ih (i0 + 1)).2 k rec h
        refine ⟨by omega, ?_, hrec, hnd, ?_⟩
        · have : k - i0 = (k - (i0 + 1)) + 1 := by omega
          rw [this]
          simpa using hget
        · intro j r hj hjr
          cases j with
          | zero =>
            left
            simp only [List.get?_cons_zero, Option.some.injEq] at hjr
            rw [← hjr]
            exact ht
          | succ j' =>
            have hj' : rest.get? j' = some r := by simpa using hjr
            have hres := hall j' r (by omega) hj'
            rcases hres with hres | hres
            · exact Or.inl hres
            · right
              have harith : (i0 + 1) + j' = i0 + (j' + 1) := by omega
              rw [← harith]
              exact hres
      · simp only [firstDueGo, if_neg ht] at h
        by_cases hm : now ≥ s.nd i0
        · rw [if_pos hm] at h
          injection h with h'
          injection h' with h1 h2
          subst h1
          subst h2
          refine ⟨Nat.le_refl _, ?_, by simpa using ht, hm, ?_⟩
          · simp
          · intro j r hj _
            omega
        · rw [if_neg hm] at h
          obtain ⟨hk, hget, hrec, hnd, hall⟩ := (ih (i0 + 1)).2 k rec h
          refine ⟨by omega, ?_, hrec, hnd, ?_⟩
          · have : k - i0 = (k - (i0 + 1)) + 1 := by omega
            rw [this]
            simpa using hget
          · intro j r hj hjr
            cases j with
            | zero =>
              right
              simpa using not_le.mp hm
            | succ j' =>
              have hj' : rest.get? j' = some r := by simpa using hjr
              have hres := hall j' r (by omega) hj'
              rcases hres with hres | hres
              · exact Or.inl hres
              · right
                have harith : (i0 + 1) + j' = i0 + (j' + 1) := by omega
                rw [← harith]
                exact hres

theorem nodup_ids_get_ne (l : List PickRow) (h : (l.map (·.id)).Nodup)
    (i j : Nat) (ri rj : PickRow) (hi : l.get? i = some ri) (hj : l.get? j = some rj)
    (hne : i ≠ j) : ri.id ≠ rj.id := by
  intro hid
  have h1 : (l.map (·.id)).get? i = some ri.id := by
    rw [List.get?_map, hi]; rfl
  have h2 : (l.map (·.id)).get? j = some rj.id := by
    rw [List.get?_map, hj]; rfl
  rw [hid] at h1
  obtain ⟨hilt, hig⟩ := List.get?_eq_some.mp h1
  obtain ⟨hjlt, hjg⟩ := List.get?_eq_some.mp h2
  have heq := (List.Nodup.get_inj_iff h).mp (hig.trans hjg.symm)
  have : i = j := congrArg Fin.val heq
  exact hne this

theorem perform_order_frame (db : DB) (nowUtc : Int) (fails : Bool)
    (team : String) (pid doid : Nat) (j : Nat) (r : PickRow)
    (hj : db.order.get? j = some r) (hne : r.id ≠ doid) :
    (perform_draft_internal db nowUtc fails team pid doid).1.order.get? j = some r := by
  cases hp : findPlayer db pid with
  | none => simpa [perform_draft_internal, hp] using hj
  | some p =>
    by_cases hf : truthyStr p.franchise
    · simpa [perform_draft_internal, hp, hf] using hj
    · by_cases he : (p.eligible.getD 0 != 1) = true
      · simpa [perform_draft_internal, hp, hf, he] using hj
      · have hnotify : ∀ (d1 : DB),
            (match notifyResult fails with
             | Except.ok _ => d1
             | Except.error _ => d1) = d1 := by
          intro d1
          cases notifyResult fails <;> rfl
        simp only [perform_draft_internal, hp, if_neg hf, if_neg he, hnotify]
        rw [List.get?_map, hj]
        simp only [Option.map_some']
        rw [if_neg (by simp [hne])]

/-- C7 counterexample: the enforcement phase does not require the queue's
head entry to be available — unavailable entries are skipped.  In `c7db`,
team `T`'s queue head is player 1 (not eligible), yet one enforcement tick
auto-assigns the deeper entry, player 2, to the due pick, contradicting
the claim's "only if the team's queue has a head entry that is currently
unowned and eligible". -/
theorem enforcement_counterexample :
    (get_team_queue c7db "T").head?.map (·.playerId) = some 1 ∧
    findPlayer c7db 1 = some { id := 1, franchise := none, eligible := some 0 } ∧
    ((enforce_queue_actions_phase1 c7db c7now 99 false).1.order.get? 0).map (·.playerId) =
      some (some 2) := by
  refine ⟨?_, ?_, ?_⟩ <;> decide

/-- C7 amended: each invocation of the end-of-clock enforcement phase
processes at most the single first undrafted pick in fixed original order
whose original-order deadline has passed; it performs an assignment only
if that pick's team policy is end-of-clock and
`get_team_queue_top_available` finds some entry whose player is currently
unowned and eligible (earlier unavailable entries are skipped) — in which
case the assigned player is exactly that entry; every other pick's row is
left unchanged by the phase. -/
theorem enforcement_phase1_amended (db : DB) (now nowUtc : Int) (fails : Bool)
    (hids : (db.order.map (·.id)).Nodup) :
    (firstDueGo db.sched now 0 db.order = none →
      enforce_queue_actions_phase1 db now nowUtc fails = (db, none)) ∧
    (∀ i rec, firstDueGo db.sched now 0 db.order = some (i, rec) →
      db.order.get? i = some rec ∧ pickTaken rec = false ∧ now ≥ db.sched.nd i ∧
      (∀ j r, j < i → db.order.get? j = some r →
        pickTaken r = true ∨ now < db.sched.nd j) ∧
      (get_queue_mode db rec.team = true →
        enforce_queue_actions_phase1 db now nowUtc fails = (db, none)) ∧
      (get_queue_mode db rec.team = false →
        get_team_queue_top_available db rec.team = none →
        enforce_queue_actions_phase1 db now nowUtc fails = (db, none)) ∧
      (∀ pid, get_queue_mode db rec.team = false →
        get_team_queue_top_available db rec.team = some pid →
        enforce_queue_actions_phase1 db now nowUtc fails =
          perform_draft_internal db nowUtc fails rec.team pid rec.id ∧
        (∀ j r, db.order.get? j = some r → j ≠ i →
          (enforce_queue_actions_phase1 db now nowUtc fails).1.order.get? j = some r))) := by
  constructor
  · intro h
    unfold enforce_queue_actions_phase1
    by_cases he : db.order.isEmpty
    · rw [if_pos he]
    · rw [if_neg he, h]
  · intro i rec h
    have hspec := (firstDueGo_spec db.sched now db.order 0).2 i rec h
    have hget : db.order.get? i = some rec := by
      have := hspec.2.1
      simpa using this
    have hne : ¬ db.order.isEmpty = true := by
      intro hemp
      rw [List.isEmpty_iff] at hemp
      rw [hemp] at h
      cases h
    refine ⟨hget, hspec.2.2.1, hspec.2.2.2.1, ?_, ?_, ?_, ?_⟩
    · intro j r hj hjr
      have := hspec.2.2.2.2 j r (by omega) hjr
      simpa using this
    · intro hmode
      unfold enforce_queue_actions_phase1
      rw [if_neg hne, h]
      dsimp only
      rw [hmode]
      rfl
    · intro hmode htop
      unfold enforce_queue_actions_phase1
      rw [if_neg hne, h]
      dsimp only
      rw [hmode, htop]
      rfl
    · intro pid hmode htop
      have henf : enforce_queue_actions_phase1 db now nowUtc fails =
          perform_draft_internal db nowUtc fails rec.team pid rec.id := by
        unfold enforce_queue_actions_phase1
        rw [if_neg hne, h]
        dsimp only
        rw [hmode, htop]
        rfl
      refine ⟨henf, ?_⟩
      intro j r hj hji
      rw [henf]
      exact perform_order_frame db nowUtc fails rec.team pid rec.id j r hj
        (nodup_ids_get_ne db.order hids j i r rec hj hget hji)

/-- Witness for C7's amended claim at `c7db`: pick 0 is due, team `T` is on
the default end-of-clock policy, the first available queue entry is player
2, and the tick reduces to exactly one `perform_draft_internal` call while
pick 1's row stays unchanged. -/
theorem enforcement_phase1_amended_witness :
    enforce_queue_actions_phase1 c7db c7now 99 false =
      perform_draft_internal c7db 99 false "T" 2 10 ∧
    (enforce_queue_actions_phase1 c7db c7now 99 false).1.order.get? 1 =
      some (mkPickU 11 1 2 "U") := by
  have h := (enforcement_phase1_amended c7db c7now 99 false (by decide)).2 0
    (mkPickU 10 1 1 "T") (by decide)
  have hs := h.2.2.2.2.2.2 2 (by decide) (by decide)
  exact ⟨hs.1, hs.2 1 (mkPickU 11 1 2 "U") (by decide) (by decide)⟩

end Bnsl
